import Mathlib

/-!
Verification of the document structural decomposition engine of the
long_form_tts repository (src/shared/pdf_parser).  The Python source is
shallowly embedded: Python ints become Int, lists become List, the
mutable section-refinement loop becomes a pure pass function iterated
with sufficient fuel, and the regular expressions of classify_entry.py
are embedded as executable matchers over lowercased character lists.
-/

/-- TOCEntry from src/shared/pdf_parser/types.py: level, title,
0-indexed page, and a mutable kind field defaulting to the empty
string. -/
structure TOCEntry where
  level : Int
  title : String
  page : Int
  kind : String := ""
deriving DecidableEq, Repr

/-- ContentRange from src/shared/pdf_parser/types.py. -/
structure ContentRange where
  start_page : Int
  end_page : Int
  total_pages : Int
  skipped_front : List String := []
  skipped_back : List String := []
deriving DecidableEq, Repr

/-- TOCSection from src/shared/pdf_parser/types.py. -/
structure TOCSection where
  title : String
  level : Int
  start_page : Int
  end_page : Int
deriving DecidableEq, Repr

/-! ## Entry classifier (classify_entry.py)

Each regular expression in FRONT_MATTER_PATTERNS, BACK_MATTER_PATTERNS
and PREAMBLE_PATTERNS is anchored at the start with a caret, so
re.search is equivalent to matching at position zero.  IGNORECASE is
modelled by lowercasing the trimmed title before matching (the
patterns are all ASCII).  The class backslash-s is modelled as ASCII
whitespace; since every backslash-s-star in the patterns is followed
by a letter, maximal munch is exact. -/

/-- Whitespace characters matched by the regex class backslash-s. -/
def isPySpace (c : Char) : Bool :=
  c = ' ' || c = '\t' || c = '\n' || c = '\r' || c = '\x0b' || c = '\x0c'

/-- Word characters for the regex class backslash-w, used by the
word-boundary assertion. -/
def isWordChar (c : Char) : Bool :=
  c.isAlphanum || c = '_'

/-- Python str.strip on the character list: whitespace removed from
both ends (ASCII whitespace model). -/
def stripChars (cs : List Char) : List Char :=
  ((cs.dropWhile isPySpace).reverse.dropWhile isPySpace).reverse

/-- Python str.strip as a String function. -/
def pyStrip (s : String) : String :=
  ⟨stripChars s.data⟩

/-- Match a literal character sequence at the front, returning the rest. -/
def lit : List Char → List Char → Option (List Char)
  | [], cs => some cs
  | _ :: _, [] => none
  | p :: ps, c :: cs => if c = p then lit ps cs else none

/-- Consume backslash-s-star (greedy, exact here because each occurrence
is followed by a letter). -/
def ws (cs : List Char) : List Char :=
  cs.dropWhile isPySpace

/-- Word-boundary assertion after a word character: holds at end of
input or before a non-word character. -/
def boundary : List Char → Bool
  | [] => true
  | c :: _ => !(isWordChar c)

/-- Pattern caret cover dollar. -/
def pCoverExact (t : List Char) : Bool := t = String.toList "cover"

/-- Pattern caret half backslash-s-star title. -/
def pHalfTitle (t : List Char) : Bool :=
  match lit (String.toList "half") t with
  | some r => (lit (String.toList "title") (ws r)).isSome
  | none => false

/-- Pattern caret title backslash-s-star page. -/
def pTitlePage (t : List Char) : Bool :=
  match lit (String.toList "title") t with
  | some r => (lit (String.toList "page") (ws r)).isSome
  | none => false

/-- Pattern caret copyright. -/
def pCopyright (t : List Char) : Bool := (lit (String.toList "copyright") t).isSome

/-- Pattern caret table backslash-s-star of backslash-s-star contents dollar. -/
def pTableOfContents (t : List Char) : Bool :=
  match lit (String.toList "table") t with
  | some r =>
    match lit (String.toList "of") (ws r) with
    | some r2 => lit (String.toList "contents") (ws r2) = some []
    | none => false
  | none => false

/-- Pattern caret contents dollar. -/
def pContentsExact (t : List Char) : Bool := t = String.toList "contents"

/-- Pattern caret list backslash-s-star of backslash-s-star
(figures or tables or illustrations). -/
def pListOf (t : List Char) : Bool :=
  match lit (String.toList "list") t with
  | some r =>
    match lit (String.toList "of") (ws r) with
    | some r2 =>
      (lit (String.toList "figures") (ws r2)).isSome
        || (lit (String.toList "tables") (ws r2)).isSome
        || (lit (String.toList "illustrations") (ws r2)).isSome
    | none => false
  | none => false

/-- Pattern caret dedication. -/
def pDedication (t : List Char) : Bool := (lit (String.toList "dedication") t).isSome

/-- Pattern caret epigraph. -/
def pEpigraph (t : List Char) : Bool := (lit (String.toList "epigraph") t).isSome

/-- Pattern caret praise backslash-b. -/
def pPraise (t : List Char) : Bool :=
  match lit (String.toList "praise") t with
  | some r => boundary r
  | none => false

/-- Pattern caret endorsements? dollar. -/
def pEndorsements (t : List Char) : Bool :=
  match lit (String.toList "endorsement") t with
  | some r => r = [] || r = [ 's']
  | none => false

/-- Pattern caret also backslash-s-star by backslash-b. -/
def pAlsoBy (t : List Char) : Bool :=
  match lit (String.toList "also") t with
  | some r =>
    match lit (String.toList "by") (ws r) with
    | some r2 => boundary r2
    | none => false
  | none => false

/-- Pattern caret about backslash-s-star the backslash-s-star cover. -/
def pAboutTheCover (t : List Char) : Bool :=
  match lit (String.toList "about") t with
  | some r =>
    match lit (String.toList "the") (ws r) with
    | some r2 => (lit (String.toList "cover") (ws r2)).isSome
    | none => false
  | none => false

/-- Pattern caret index dollar. -/
def pIndexExact (t : List Char) : Bool := t = String.toList "index"

/-- Pattern caret glossary dollar. -/
def pGlossaryExact (t : List Char) : Bool := t = String.toList "glossary"

/-- Pattern caret bibliography dollar. -/
def pBibliographyExact (t : List Char) : Bool := t = String.toList "bibliography"

/-- Pattern caret references dollar. -/
def pReferencesExact (t : List Char) : Bool := t = String.toList "references"

/-- Pattern caret about backslash-s-star the backslash-s-star authors? dollar. -/
def pAboutTheAuthors (t : List Char) : Bool :=
  match lit (String.toList "about") t with
  | some r =>
    match lit (String.toList "the") (ws r) with
    | some r2 =>
      match lit (String.toList "author") (ws r2) with
      | some r3 => r3 = [] || r3 = [ 's']
      | none => false
    | none => false
  | none => false

/-- Pattern caret colophon dollar. -/
def pColophonExact (t : List Char) : Bool := t = String.toList "colophon"

/-- Pattern caret appendix. -/
def pAppendix (t : List Char) : Bool := (lit (String.toList "appendix") t).isSome

/-- Pattern caret foreword. -/
def pForeword (t : List Char) : Bool := (lit (String.toList "foreword") t).isSome

/-- Pattern caret preface. -/
def pPreface (t : List Char) : Bool := (lit (String.toList "preface") t).isSome

/-- Pattern caret introduction dollar. -/
def pIntroductionExact (t : List Char) : Bool := t = String.toList "introduction"

/-- Pattern caret acknowledgments? dollar. -/
def pAcknowledgments (t : List Char) : Bool :=
  match lit (String.toList "acknowledgment") t with
  | some r => r = [] || r = [ 's']
  | none => false

/-- FRONT_MATTER_PATTERNS of classify_entry.py, in source order. -/
def frontPatterns : List (List Char → Bool) :=
  [pCoverExact, pHalfTitle, pTitlePage, pCopyright, pTableOfContents,
   pContentsExact, pListOf, pDedication, pEpigraph, pPraise,
   pEndorsements, pAlsoBy, pAboutTheCover]

/-- BACK_MATTER_PATTERNS of classify_entry.py, in source order. -/
def backPatterns : List (List Char → Bool) :=
  [pIndexExact, pGlossaryExact, pBibliographyExact, pReferencesExact,
   pAboutTheAuthors, pColophonExact, pAppendix]

/-- PREAMBLE_PATTERNS of classify_entry.py, in source order. -/
def preamblePatterns : List (List Char → Bool) :=
  [pForeword, pPreface, pIntroductionExact, pAcknowledgments]

/-- Normalised title used for matching: strip, then lowercase for
IGNORECASE (the patterns only contain ASCII letters). -/
def normTitle (title : String) : List Char :=
  (stripChars title.data).map Char.toLower

/-- classify_entry from classify_entry.py: front patterns first, then
back, then preamble; first search hit wins, default content. -/
def classify_entry (entry : TOCEntry) : String :=
  let t := normTitle entry.title
  if frontPatterns.any (fun p => p t) then "front"
  else if backPatterns.any (fun p => p t) then "back"
  else if preamblePatterns.any (fun p => p t) then "preamble"
  else "content"

/-! ## Outline source (extract_toc.py) -/

/-- extract_toc from extract_toc.py, as a function of the raw bookmark
list returned by doc.get_toc (triples of level, title, 1-based page).
Bookmarks whose 0-based page is negative are skipped; titles are
stripped. -/
def extract_toc (raw : List (Int × String × Int)) : List TOCEntry :=
  raw.filterMap fun r =>
    let page0 := r.2.2 - 1
    if page0 < 0 then none
    else some { level := r.1, title := pyStrip r.2.1, page := page0 }

/-! ## Outline selector (the function _get_toc of resolve_content.py) -/

/-- Maximum page over a non-empty entry list (max of a generator in the
source); 0 for the empty list, which the source never reaches. -/
def maxEntryPage : List TOCEntry → Int
  | [] => 0
  | e :: rest => rest.foldl (fun m x => max m x.page) e.page

/-- The function _get_toc of resolve_content.py as a function of the
embedded outline, the (lazily invoked) inferred outline, the page count
and min_coverage.  The parameter min_coverage (a Python float,
default 0.3) is modelled as the exact fraction covNum over covDen with
covDen positive, and the comparison max_page >= total_pages *
min_coverage is multiplied out by covDen.  At the instance exercised
by the spec (total_pages = 100, min_coverage = 0.3) the double product
in the source is exactly 30.0, equal to the exact product 100 * 3/10,
so the model agrees with the source there. -/
def get_toc (embedded inferred : List TOCEntry) (totalPages : Int)
    (covNum covDen : Int) : List TOCEntry :=
  match embedded with
  | [] => inferred
  | _ =>
    if totalPages * covNum ≤ maxEntryPage embedded * covDen then embedded
    else inferred

/-! ## Content range resolver (resolve_content_pages) -/

/-- Classify every entry, as the source does in place before boundary
detection. -/
def classifyAll (entries : List TOCEntry) : List TOCEntry :=
  entries.map fun e => { e with kind := classify_entry e }

/-- Human-readable description of a skipped entry, matching the
f-string of resolve_content.py. -/
def skipDesc (e : TOCEntry) : String :=
  "p." ++ toString e.page ++ ": " ++ e.title ++ " [" ++ e.kind ++ "]"

/-- Forward scan of the top-level entries: the first preamble or
content entry fixes start_page (default 0), everything before it is
recorded as skipped front matter. -/
def findStart : List TOCEntry → Int × List String
  | [] => (0, [])
  | e :: rest =>
    if e.kind = "preamble" || e.kind = "content" then (e.page, [])
    else
      let r := findStart rest
      (r.1, skipDesc e :: r.2)

/-- Backward scan (the source iterates the reversed top-level list):
while entries are back matter, end_page is moved to just before them;
the accumulator builds the descriptions already in forward order,
matching the final reverse in the source. -/
def scanBack : List TOCEntry → Int → List String → Int × List String
  | [], endP, acc => (endP, acc)
  | e :: rest, endP, acc =>
    if e.kind = "back" then scanBack rest (e.page - 1) (skipDesc e :: acc)
    else (endP, acc)

/-- resolve_content_pages from resolve_content.py, as a function of the
resolved outline entries and the page count. -/
def resolveContentPages (entries : List TOCEntry) (totalPages : Int) : ContentRange :=
  match entries with
  | [] =>
    { start_page := 0, end_page := totalPages - 1, total_pages := totalPages }
  | _ =>
    let classified := classifyAll entries
    let topLevel := classified.filter fun e => e.level = 1
    let fs := findStart topLevel
    let bs := scanBack topLevel.reverse (totalPages - 1) []
    { start_page := fs.1, end_page := bs.1, total_pages := totalPages,
      skipped_front := fs.2, skipped_back := bs.2 }

/-! ## Section builder and budget subdivider (resolve_content_sections)

The Python loop mutates sections in place and rebuilds the list each
pass.  Here one pass is the pure function onePass; the while loop is
budgetLoop, run with enough fuel (a termination measure bound, proved
to decrease below) so that it reaches the same fixed point the source
loop reaches.  The size estimator, external in the source, is a
function argument. -/

/-- Shared shape of the two section-building loops in the source: one
section per entry, ending just before the next entry (guarded by max),
the last one extending to lastEnd. -/
def buildSections : List TOCEntry → Int → List TOCSection
  | [], _ => []
  | [e], lastEnd => [{ title := e.title, level := e.level,
                       start_page := e.page, end_page := lastEnd : TOCSection }]
  | e :: e2 :: rest, lastEnd =>
    { title := e.title, level := e.level,
      start_page := e.page, end_page := max e.page (e2.page - 1) : TOCSection }
      :: buildSections (e2 :: rest) lastEnd

/-- Deepest level in the outline: max of the levels of a non-empty
list (0 for the empty list, unreachable in the source). -/
def deepestLevel : List TOCEntry → Int
  | [] => 0
  | e :: rest => rest.foldl (fun m x => max m x.level) e.level

/-- Child entries one level deeper than a section, classified as
preamble or content, inside the section page span. -/
def childrenOf (allE : List TOCEntry) (sec : TOCSection) : List TOCEntry :=
  allE.filter fun e =>
    e.level = sec.level + 1
      && (e.kind = "preamble" || e.kind = "content")
      && sec.start_page ≤ e.page && e.page ≤ sec.end_page

/-- Page-walk of the chunking fallback.  The walk visits the pages of
the section in order (fuel counts the remaining pages, pg is the
current page); whenever estimating the open chunk through the current
page overflows the budget and the chunk already has a page, the chunk
is closed just before the current page.  Returns the closed chunks,
the start of the open chunk, and the part counter. -/
def chunkLoop (est : Int → Int → Int) (mt : Int) (title : String)
    (level endP : Int) :
    Nat → Int → Int → Int → List TOCSection → List TOCSection × Int × Int
  | 0, _, chunkStart, part, acc => (acc, chunkStart, part)
  | fuel + 1, pg, chunkStart, part, acc =>
    if mt < est chunkStart pg ∧ chunkStart < pg then
      chunkLoop est mt title level endP fuel (pg + 1) pg (part + 1)
        (acc ++ [{ title := title ++ " (part " ++ toString part ++ ")",
                   level := level, start_page := chunkStart, end_page := pg - 1 }])
    else
      chunkLoop est mt title level endP fuel (pg + 1) chunkStart part acc

/-- Page-level chunking of an oversized leaf section.  Returns the new
sections and the value assigned to the changed flag (part greater
than 1). -/
def chunkSection (est : Int → Int → Int) (mt : Int) (sec : TOCSection) :
    List TOCSection × Bool :=
  let fuel := (sec.end_page + 1 - sec.start_page).toNat
  let r := chunkLoop est mt sec.title sec.level sec.end_page fuel
    sec.start_page sec.start_page 1 []
  let finalTitle :=
    if 1 < r.2.2 then sec.title ++ " (part " ++ toString r.2.2 ++ ")" else sec.title
  (r.1 ++ [{ title := finalTitle, level := sec.level,
             start_page := r.2.1, end_page := sec.end_page }],
   decide (1 < r.2.2))

/-- Short leading sub-section kept when the first child starts after
the parent: parent title and level, from the parent start to just
before the first child. -/
def introSec (sec : TOCSection) (c0page : Int) : TOCSection :=
  { title := sec.title, level := sec.level,
    start_page := sec.start_page, end_page := c0page - 1 }

/-- Treatment of one section inside a pass.  Returns the replacement
sections and the assignment to the changed flag: none when the branch
leaves the flag untouched (within budget, or no children while deeper
levels exist elsewhere), some b when the branch assigns b. -/
def processSection (allE : List TOCEntry) (deepest : Int)
    (est : Int → Int → Int) (mt : Int) (sec : TOCSection) :
    List TOCSection × Option Bool :=
  if est sec.start_page sec.end_page ≤ mt then ([sec], none)
  else
    match childrenOf allE sec with
    | [] =>
      if deepest ≤ sec.level then
        let r := chunkSection est mt sec
        (r.1, some r.2)
      else ([sec], none)
    | c0 :: cs =>
      let intro : List TOCSection :=
        if sec.start_page < c0.page then [introSec sec c0.page] else []
      (intro ++ buildSections (c0 :: cs) sec.end_page, some true)

/-- One full pass of the refinement loop, threading the changed flag
left to right with Python assignment semantics: a later assignment
overwrites an earlier one. -/
def onePassGo (allE : List TOCEntry) (deepest : Int) (est : Int → Int → Int)
    (mt : Int) : List TOCSection → Bool → List TOCSection × Bool
  | [], ch => ([], ch)
  | sec :: rest, ch =>
    let r := processSection allE deepest est mt sec
    let t := onePassGo allE deepest est mt rest (r.2.getD ch)
    (r.1 ++ t.1, t.2)

/-- One pass starting, as the source does, with the changed flag reset
to false. -/
def onePass (allE : List TOCEntry) (deepest : Int) (est : Int → Int → Int)
    (mt : Int) (secs : List TOCSection) : List TOCSection × Bool :=
  onePassGo allE deepest est mt secs false

/-- Length in pages of a section span (0 when degenerate). -/
def lenNat (sec : TOCSection) : Nat :=
  (sec.end_page + 1 - sec.start_page).toNat

/-- Exponent of the termination measure: distance of the section level
from one past the deepest outline level. -/
def expo (deepest : Int) (sec : TOCSection) : Nat :=
  (deepest + 1 - sec.level).toNat

/-- Termination measure of one section. -/
def mSec (B : Nat) (deepest : Int) (sec : TOCSection) : Nat :=
  (2 * lenNat sec - 1) * B ^ expo deepest sec

/-- Termination measure of a section list. -/
def mList (B : Nat) (deepest : Int) (secs : List TOCSection) : Nat :=
  (secs.map (mSec B deepest)).sum

/-- Largest section span in a list, used to size the measure base. -/
def lmaxOf (secs : List TOCSection) : Nat :=
  (secs.map lenNat).foldr max 0

/-- Base of the termination measure, large enough that subdividing one
section into at most length allE children strictly shrinks the
measure. -/
def mBase (allE : List TOCEntry) (secs : List TOCSection) : Nat :=
  allE.length * lmaxOf secs + 2

/-- The while loop of the budget subdivider, with explicit fuel. -/
def budgetLoop (allE : List TOCEntry) (deepest : Int) (est : Int → Int → Int)
    (mt : Int) : Nat → List TOCSection → List TOCSection
  | 0, secs => secs
  | fuel + 1, secs =>
    let r := onePass allE deepest est mt secs
    if r.2 then budgetLoop allE deepest est mt fuel r.1 else r.1

/-- The budget-enforcement phase of resolve_content_sections: iterate
passes until one reports no change.  The fuel bound mList + 1 is
sufficient, since every changed pass strictly decreases mList (proved
below), so the loop reaches the same result as the unbounded source
loop. -/
def enforceBudget (allE : List TOCEntry) (est : Int → Int → Int) (mt : Int)
    (secs : List TOCSection) : List TOCSection :=
  let deepest := deepestLevel allE
  budgetLoop allE deepest est mt (mList (mBase allE secs) deepest secs + 1) secs

/-- resolve_content_sections from resolve_content.py, as a function of
the resolved outline entries, the page count, max_level, max_tokens
and the size estimator. -/
def resolveContentSections (entries : List TOCEntry) (totalPages maxLevel : Int)
    (maxTokens : Option Int) (est : Int → Int → Int) : List TOCSection :=
  let cr := resolveContentPages entries totalPages
  match entries with
  | [] =>
    [{ title := "Full Document", level := 1,
       start_page := cr.start_page, end_page := cr.end_page }]
  | _ =>
    let allE := classifyAll entries
    let contentEntries := allE.filter fun e =>
      e.level ≤ maxLevel
        && (e.kind = "preamble" || e.kind = "content")
        && cr.start_page ≤ e.page && e.page ≤ cr.end_page
    match contentEntries with
    | [] =>
      [{ title := "Full Document", level := 1,
         start_page := cr.start_page, end_page := cr.end_page }]
    | _ =>
      let sections := buildSections contentEntries cr.end_page
      match maxTokens with
      | none => sections
      | some mt => enforceBudget allE est mt sections

/-- Composition with the outline selector, matching the entry point of
the source, which resolves the outline through the function _get_toc. -/
def resolveContentSectionsFull (embedded inferred : List TOCEntry)
    (totalPages maxLevel : Int) (maxTokens : Option Int)
    (est : Int → Int → Int) (covNum covDen : Int) : List TOCSection :=
  resolveContentSections (get_toc embedded inferred totalPages covNum covDen)
    totalPages maxLevel maxTokens est

/-! ## Partition predicate

chainB lo hi secs states that secs is non-empty, its first section
starts at lo, consecutive sections are exactly adjacent, every section
is non-degenerate, and the last section ends at hi: that is, the
sections are sorted by start page, mutually non-overlapping, and cover
the inclusive range lo..hi with no gaps. -/
def chainB : Int → Int → List TOCSection → Bool
  | _, _, [] => false
  | lo, hi, [s] => s.start_page = lo && s.end_page = hi && lo ≤ hi
  | lo, hi, s :: s2 :: rest =>
    s.start_page = lo && lo ≤ s.end_page && chainB (s.end_page + 1) hi (s2 :: rest)

/-- Propositional form of chainB. -/
def Chain (lo hi : Int) (secs : List TOCSection) : Prop :=
  chainB lo hi secs = true

/-! ## Claim C6: classifier cascade -/

/-- Ordered rule list of the claim: front patterns first, then back,
then preamble, each paired with its category. -/
def orderedRules : List ((List Char → Bool) × String) :=
  (frontPatterns.map fun p => (p, "front"))
    ++ (backPatterns.map fun p => (p, "back"))
    ++ (preamblePatterns.map fun p => (p, "preamble"))

/-- Category of the first matching pattern in the ordered rule list,
content when none matches. -/
def firstMatchCategory (title : String) : String :=
  match orderedRules.find? (fun r => r.1 (normTitle title)) with
  | some r => r.2
  | none => "content"

theorem find?_map_pair (l : List (List Char → Bool)) (cat : String) (t : List Char) :
    (l.map fun p => (p, cat)).find? (fun r => r.1 t)
      = (l.find? fun p => p t).map (fun p => (p, cat)) := by
  induction l with
  | nil => rfl
  | cons p ps ih =>
    by_cases h : p t <;> simp [List.find?_cons, h, ih]

theorem any_eq_find? (l : List (List Char → Bool)) (t : List Char) :
    l.any (fun p => p t) = (l.find? fun p => p t).isSome := by
  induction l with
  | nil => rfl
  | cons p ps ih =>
    by_cases h : p t <;> simp [List.find?_cons, h, ih]

/-- C6.  classify_entry matches the trimmed title case-insensitively
against the front-matter patterns first, then the back-matter
patterns, then the preamble patterns, returns the category of the
first matching pattern and content when no pattern matches; the
patterns are anchored at the start of the title, so the title
Appendix A is classified back. -/
theorem c6_classifier_cascade :
    (∀ e : TOCEntry, classify_entry e = firstMatchCategory e.title)
      ∧ classify_entry { level := 1, title := "Appendix A", page := 0 } = "back" := by
  constructor
  · intro e
    simp only [classify_entry, firstMatchCategory, orderedRules]
    rw [List.find?_append, List.find?_append, find?_map_pair, find?_map_pair,
      find?_map_pair, any_eq_find? frontPatterns, any_eq_find? backPatterns,
      any_eq_find? preamblePatterns]
    rcases hf : frontPatterns.find? fun p => p (normTitle e.title) with _ | pf <;>
      rcases hb : backPatterns.find? fun p => p (normTitle e.title) with _ | pb <;>
        rcases hp : preamblePatterns.find? fun p => p (normTitle e.title) with _ | pp <;>
          simp [hf, hb, hp, Option.or]
  · decide

/-! ## Claim C5: outline selection threshold -/

/-- C5.  With total_pages 100 and the default min_coverage 3/10, the
outline selector rejects a non-empty embedded outline whose maximum
entry page is 29, returning the inferred outline instead, and accepts
one whose maximum entry page is 30, returning the embedded outline
unchanged. -/
theorem c5_outline_selection_threshold
    (embLow embHigh inf1 inf2 : List TOCEntry)
    (hL : embLow ≠ []) (hH : embHigh ≠ [])
    (hmaxL : maxEntryPage embLow = 29) (hmaxH : maxEntryPage embHigh = 30) :
    get_toc embLow inf1 100 3 10 = inf1
      ∧ get_toc embHigh inf2 100 3 10 = embHigh := by
  constructor
  · match embLow, hL with
    | e :: es, _ =>
      simp only [get_toc]
      rw [hmaxL]
      norm_num
  · match embHigh, hH with
    | e :: es, _ =>
      simp only [get_toc]
      rw [hmaxH]
      norm_num

/-- Witness for C5 at concrete outlines. -/
theorem c5_outline_selection_threshold_witness :
    get_toc [{ level := 1, title := "Ch", page := 29 }]
        [{ level := 1, title := "I", page := 50 }] 100 3 10
      = [{ level := 1, title := "I", page := 50 }]
    ∧ get_toc [{ level := 1, title := "Ch", page := 30 }]
        [{ level := 1, title := "I", page := 50 }] 100 3 10
      = [{ level := 1, title := "Ch", page := 30 }] :=
  c5_outline_selection_threshold
    [{ level := 1, title := "Ch", page := 29 }]
    [{ level := 1, title := "Ch", page := 30 }]
    [{ level := 1, title := "I", page := 50 }]
    [{ level := 1, title := "I", page := 50 }]
    (by decide) (by decide) (by decide) (by decide)

/-! ## Claim C7: front and back trimming scenario -/

/-- C7.  On a 50-page document with top-level entries Cover at page 0,
Preface at page 2, Chapter 1 at page 5 and Index at page 40, the
content range resolver returns start_page 2, end_page 39, and the
expected skip diagnostics. -/
theorem c7_front_back_trimming :
    resolveContentPages
        [ { level := 1, title := "Cover", page := 0 },
          { level := 1, title := "Preface", page := 2 },
          { level := 1, title := "Chapter 1", page := 5 },
          { level := 1, title := "Index", page := 40 } ] 50
      = { start_page := 2, end_page := 39, total_pages := 50,
          skipped_front := ["p.0: Cover [front]"],
          skipped_back := ["p.40: Index [back]"] } := by decide

/-! ## Claim C8: no outline, full-document fallback -/

/-- C8.  When both the embedded and the inferred outline are empty on
a 50-page document, the engine returns exactly one section titled Full
Document spanning pages 0 to 49; the result is an ordinary section
list, not an error. -/
theorem c8_no_outline_full_document :
    ∀ est : Int → Int → Int,
      resolveContentSectionsFull [] [] 50 1 (some 24000) est 3 10
        = [{ title := "Full Document", level := 1, start_page := 0, end_page := 49 }] :=
  fun _ => rfl

/-! ## Claim C9: extract_toc page bounds -/

/-- C9 counterexample.  extract_toc drops only bookmarks whose 0-based
page is negative; it performs no upper-bound check, so a corrupt
bookmark pointing past the end of a 50-page document is delivered with
page 60, outside 0..49. -/
theorem c9_counterexample :
    extract_toc [(1, "X", 61)] = [{ level := 1, title := "X", page := 60 }]
      ∧ ¬ ((60 : Int) ≤ 50 - 1) := by decide

/-- C9 as amended.  Every entry returned by extract_toc has a
non-negative page: bookmarks with negative source page numbers are
dropped.  No upper bound against the page count is enforced. -/
theorem c9_pages_nonnegative (raw : List (Int × String × Int)) (e : TOCEntry)
    (he : e ∈ extract_toc raw) : 0 ≤ e.page := by
  induction raw with
  | nil => cases he
  | cons r rest ih =>
    unfold extract_toc at he ih
    rw [List.filterMap_cons] at he
    by_cases h : r.2.2 - 1 < 0
    · rw [if_pos h] at he
      exact ih he
    · rw [if_neg h] at he
      rcases List.mem_cons.mp he with h1 | h2
      · simp only [h1]
        omega
      · exact ih h2

/-- Witness for C9 as amended at a concrete bookmark list. -/
theorem c9_pages_nonnegative_witness :
    ({ level := 1, title := "X", page := 2 } : TOCEntry) ∈ extract_toc [(1, "X", 3)]
      ∧ (0 : Int) ≤ ({ level := 1, title := "X", page := 2 } : TOCEntry).page :=
  ⟨by decide, c9_pages_nonnegative [(1, "X", 3)] { level := 1, title := "X", page := 2 }
    (by decide)⟩

/-! ## Claim C10: outlines without top-level entries -/

/-- C10.  For every non-empty outline containing no entry at level 1,
the content range resolver returns the full page span with empty skip
lists, exactly the result it returns for an empty outline. -/
theorem c10_no_top_level_full_range (entries : List TOCEntry) (totalPages : Int)
    (hne : entries ≠ []) (hlev : ∀ e ∈ entries, e.level ≠ 1) :
    resolveContentPages entries totalPages
      = { start_page := 0, end_page := totalPages - 1, total_pages := totalPages }
    ∧ resolveContentPages entries totalPages
      = resolveContentPages [] totalPages := by
  cases entries with
  | nil => exact absurd rfl hne
  | cons x xs =>
    have htop : (classifyAll (x :: xs)).filter (fun e => e.level = 1) = [] := by
      rw [List.filter_eq_nil_iff]
      intro a ha
      rcases List.mem_map.mp ha with ⟨e, he, rfl⟩
      simpa using hlev e he
    refine ⟨?_, ?_⟩ <;> simp only [resolveContentPages, htop, List.reverse_nil] <;> rfl

/-- Witness for C10 at a concrete outline. -/
theorem c10_no_top_level_full_range_witness :
    resolveContentPages [{ level := 2, title := "S", page := 5 }] 10
      = { start_page := 0, end_page := 9, total_pages := 10 }
    ∧ resolveContentPages [{ level := 2, title := "S", page := 5 }] 10
      = resolveContentPages [] 10 :=
  c10_no_top_level_full_range [{ level := 2, title := "S", page := 5 }] 10
    (by decide) (by decide)

/-! ## Basic facts about the partition predicate -/

theorem chain_ne_nil {lo hi : Int} {secs : List TOCSection} (h : Chain lo hi secs) :
    secs ≠ [] := by
  intro he
  rw [he] at h
  exact Bool.false_ne_true h

theorem chain_singleton_iff {lo hi : Int} {s : TOCSection} :
    Chain lo hi [s] ↔ s.start_page = lo ∧ s.end_page = hi ∧ lo ≤ hi := by
  simp [Chain, chainB, and_assoc]

theorem chain_cons₂_iff {lo hi : Int} {s s2 : TOCSection} {rest : List TOCSection} :
    Chain lo hi (s :: s2 :: rest)
      ↔ s.start_page = lo ∧ lo ≤ s.end_page ∧ Chain (s.end_page + 1) hi (s2 :: rest) := by
  simp [Chain, chainB, and_assoc]

theorem chain_le {lo hi : Int} {secs : List TOCSection} (h : Chain lo hi secs) :
    lo ≤ hi := by
  induction secs generalizing lo with
  | nil => exact absurd rfl (chain_ne_nil h)
  | cons s rest ih =>
    cases rest with
    | nil =>
      rcases chain_singleton_iff.mp h with ⟨_, _, hle⟩
      exact hle
    | cons s2 rest2 =>
      rcases chain_cons₂_iff.mp h with ⟨_, hle, hrest⟩
      have := ih hrest
      omega

theorem chain_append {lo m hi : Int} {xs ys : List TOCSection}
    (hx : Chain lo m xs) (hy : Chain (m + 1) hi ys) :
    Chain lo hi (xs ++ ys) := by
  induction xs generalizing lo with
  | nil => exact absurd rfl (chain_ne_nil hx)
  | cons s rest ih =>
    cases rest with
    | nil =>
      rcases chain_singleton_iff.mp hx with ⟨hs, he, hle⟩
      cases ys with
      | nil => exact absurd rfl (chain_ne_nil hy)
      | cons y ys2 =>
        rw [List.singleton_append]
        exact chain_cons₂_iff.mpr ⟨hs, by omega, by rw [he]; exact hy⟩
    | cons s2 rest2 =>
      rcases chain_cons₂_iff.mp hx with ⟨hs, hle, hrest⟩
      have htail := ih hrest
      simp only [List.cons_append] at htail ⊢
      exact chain_cons₂_iff.mpr ⟨hs, hle, htail⟩

theorem chain_mem_bounds {lo hi : Int} {secs : List TOCSection} (h : Chain lo hi secs) :
    ∀ s ∈ secs, lo ≤ s.start_page ∧ s.start_page ≤ s.end_page ∧ s.end_page ≤ hi := by
  induction secs generalizing lo with
  | nil => exact absurd rfl (chain_ne_nil h)
  | cons s rest ih =>
    cases rest with
    | nil =>
      rcases chain_singleton_iff.mp h with ⟨hs, he, hle⟩
      intro x hx
      rcases List.mem_singleton.mp hx with rfl
      omega
    | cons s2 rest2 =>
      rcases chain_cons₂_iff.mp h with ⟨hs, hle, hrest⟩
      intro x hx
      rcases List.mem_cons.mp hx with rfl | hx2
      · have h2 := chain_le hrest
        omega
      · have := ih hrest x hx2
        omega

theorem chain_sorted_disjoint {lo hi : Int} {secs : List TOCSection}
    (h : Chain lo hi secs) :
    secs.Pairwise (fun a b => a.end_page < b.start_page) := by
  induction secs generalizing lo with
  | nil => exact List.Pairwise.nil
  | cons s rest ih =>
    cases rest with
    | nil => simp
    | cons s2 rest2 =>
      rcases chain_cons₂_iff.mp h with ⟨hs, hle, hrest⟩
      refine List.pairwise_cons.mpr ⟨?_, ih hrest⟩
      intro b hb
      have := chain_mem_bounds hrest b hb
      omega

/-! ## Facts about buildSections -/

theorem buildSections_length (l : List TOCEntry) (lastEnd : Int) :
    (buildSections l lastEnd).length = l.length := by
  induction l with
  | nil => rfl
  | cons e rest ih =>
    cases rest with
    | nil => rfl
    | cons e2 rest2 =>
      simp only [buildSections, List.length_cons, ih]

theorem buildSections_ne_nil {l : List TOCEntry} (h : l ≠ []) (lastEnd : Int) :
    buildSections l lastEnd ≠ [] := by
  intro hc
  have := buildSections_length l lastEnd
  rw [hc] at this
  cases l with
  | nil => exact h rfl
  | cons e rest => simp at this

theorem buildSections_mem (l : List TOCEntry) (lastEnd : Int) :
    ∀ p ∈ buildSections l lastEnd,
      ∃ x ∈ l, p.level = x.level ∧ p.start_page = x.page ∧ p.title = x.title := by
  induction l with
  | nil => intro p hp; cases hp
  | cons e rest ih =>
    cases rest with
    | nil =>
      intro p hp
      rcases List.mem_singleton.mp hp with rfl
      exact ⟨e, List.mem_cons_self e [], rfl, rfl, rfl⟩
    | cons e2 rest2 =>
      intro p hp
      rcases List.mem_cons.mp hp with rfl | hp2
      · exact ⟨e, List.mem_cons_self _ _, rfl, rfl, rfl⟩
      · rcases ih p hp2 with ⟨x, hx, h1, h2, h3⟩
        exact ⟨x, List.mem_cons_of_mem e hx, h1, h2, h3⟩

theorem buildSections_bounds (l : List TOCEntry) (lo hi : Int)
    (hl : ∀ x ∈ l, lo ≤ x.page ∧ x.page ≤ hi) :
    ∀ p ∈ buildSections l hi, lo ≤ p.start_page ∧ p.end_page ≤ hi := by
  induction l with
  | nil => intro p hp; cases hp
  | cons e rest ih =>
    cases rest with
    | nil =>
      intro p hp
      rcases List.mem_singleton.mp hp with rfl
      have := hl e (List.mem_cons_self e [])
      exact ⟨this.1, le_refl hi⟩
    | cons e2 rest2 =>
      intro p hp
      rcases List.mem_cons.mp hp with rfl | hp2
      · have h1 := hl e (List.mem_cons_self _ _)
        have h2 := hl e2 (List.mem_cons_of_mem e (List.mem_cons_self _ _))
        constructor
        · exact h1.1
        · simp only [max_le_iff]
          omega
      · exact ih (fun x hx => hl x (List.mem_cons_of_mem e hx)) p hp2

theorem buildSections_chain (e : TOCEntry) (rest : List TOCEntry) (hi : Int)
    (hsort : (e :: rest).Pairwise (fun a b => a.page < b.page))
    (hub : ∀ x ∈ e :: rest, x.page ≤ hi) :
    Chain e.page hi (buildSections (e :: rest) hi) := by
  induction rest generalizing e with
  | nil =>
    have := hub e (List.mem_cons_self e [])
    exact chain_singleton_iff.mpr ⟨rfl, rfl, this⟩
  | cons e2 rest2 ih =>
    have hlt : e.page < e2.page :=
      (List.pairwise_cons.mp hsort).1 e2 (List.mem_cons_self _ _)
    have hmax : max e.page (e2.page - 1) = e2.page - 1 := by omega
    have htail := ih e2 (List.pairwise_cons.mp hsort).2
      (fun x hx => hub x (List.mem_cons_of_mem e hx))
    have hbs : buildSections (e2 :: rest2) hi ≠ [] :=
      buildSections_ne_nil (by simp) hi
    simp only [buildSections]
    match hh : buildSections (e2 :: rest2) hi, hbs with
    | z :: zs, _ =>
      rw [hh] at htail
      refine chain_cons₂_iff.mpr ⟨rfl, ?_, ?_⟩
      · show e.page ≤ max e.page (e2.page - 1)
        exact le_max_left _ _
      · show Chain (max e.page (e2.page - 1) + 1) hi (z :: zs)
        rw [hmax]
        have h1 : e2.page - 1 + 1 = e2.page := by omega
        rw [h1]
        exact htail

/-! ## Facts about the chunking walk -/

theorem chunkLoop_partMono (est : Int → Int → Int) (mt : Int) (title : String)
    (level endP : Int) :
    ∀ fuel pg cs part acc,
      part ≤ (chunkLoop est mt title level endP fuel pg cs part acc).2.2 := by
  intro fuel
  induction fuel with
  | zero => intro pg cs part acc; simp [chunkLoop]
  | succ n ih =>
    intro pg cs part acc
    simp only [chunkLoop]
    split
    · exact le_trans (by omega) (ih (pg + 1) pg (part + 1) _)
    · exact ih (pg + 1) cs part acc

theorem chunkLoop_frame (est : Int → Int → Int) (mt : Int) (title : String)
    (level endP : Int) :
    ∀ fuel pg cs part acc,
      (chunkLoop est mt title level endP fuel pg cs part acc).2.2 = part →
      (chunkLoop est mt title level endP fuel pg cs part acc).2.1 = cs
        ∧ (chunkLoop est mt title level endP fuel pg cs part acc).1 = acc := by
  intro fuel
  induction fuel with
  | zero => intro pg cs part acc _; exact ⟨rfl, rfl⟩
  | succ n ih =>
    intro pg cs part acc hpart
    simp only [chunkLoop] at hpart ⊢
    split at hpart
    · have := chunkLoop_partMono est mt title level endP n (pg + 1) pg (part + 1)
        (acc ++ [{ title := title ++ " (part " ++ toString part ++ ")",
                   level := level, start_page := cs, end_page := pg - 1 }])
      omega
    · rename_i hcond
      rw [if_neg hcond]
      exact ih (pg + 1) cs part acc hpart

theorem chunkLoop_accLen (est : Int → Int → Int) (mt : Int) (title : String)
    (level endP : Int) :
    ∀ (fuel : Nat) (pg cs part : Int) (acc : List TOCSection),
      part = acc.length + 1 →
      (chunkLoop est mt title level endP fuel pg cs part acc).2.2
        = (chunkLoop est mt title level endP fuel pg cs part acc).1.length + 1 := by
  intro fuel
  induction fuel with
  | zero => intro pg cs part acc h; exact h
  | succ n ih =>
    intro pg cs part acc h
    simp only [chunkLoop]
    split
    · refine ih (pg + 1) pg (part + 1) _ ?_
      simp only [List.length_append, List.length_singleton]
      omega
    · exact ih (pg + 1) cs part acc h

theorem chunkLoop_noclose (est : Int → Int → Int) (mt : Int) (title : String)
    (level endP : Int) :
    ∀ (fuel : Nat) (pg cs part : Int) (acc : List TOCSection),
      pg + (fuel : Int) = endP + 1 → 1 ≤ fuel →
      (chunkLoop est mt title level endP fuel pg cs part acc).2.2 = part →
      ¬(mt < est cs endP ∧ cs < endP) := by
  intro fuel
  induction fuel with
  | zero => intro pg cs part acc _ h2; omega
  | succ n ih =>
    intro pg cs part acc hpg _ hpart
    simp only [chunkLoop] at hpart
    split at hpart
    · have := chunkLoop_partMono est mt title level endP n (pg + 1) pg (part + 1)
        (acc ++ [{ title := title ++ " (part " ++ toString part ++ ")",
                   level := level, start_page := cs, end_page := pg - 1 }])
      omega
    · rename_i hcond
      cases n with
      | zero =>
        have hpgEnd : pg = endP := by
          push_cast at hpg
          omega
        rw [hpgEnd] at hcond
        exact hcond
      | succ m =>
        exact ih (pg + 1) cs part acc (by push_cast at hpg ⊢; omega) (by omega) hpart

theorem chunkLoop_levels (est : Int → Int → Int) (mt : Int) (title : String)
    (level endP : Int) :
    ∀ fuel pg cs part acc,
      (∀ p ∈ acc, p.level = level) →
      ∀ p ∈ (chunkLoop est mt title level endP fuel pg cs part acc).1,
        p.level = level := by
  intro fuel
  induction fuel with
  | zero => intro pg cs part acc h; exact h
  | succ n ih =>
    intro pg cs part acc h
    simp only [chunkLoop]
    split
    · refine ih (pg + 1) pg (part + 1) _ ?_
      intro p hp
      rcases List.mem_append.mp hp with h1 | h2
      · exact h p h1
      · rcases List.mem_singleton.mp h2 with rfl
        rfl
    · exact ih (pg + 1) cs part acc h

theorem chunkLoop_chain (est : Int → Int → Int) (mt : Int) (title : String)
    (level endP start : Int) :
    ∀ (fuel : Nat) (pg cs part : Int) (acc : List TOCSection),
      pg + (fuel : Int) = endP + 1 →
      cs ≤ pg → cs ≤ endP → start ≤ cs →
      (acc = [] ∧ cs = start ∨ Chain start (cs - 1) acc) →
      ∀ (T : String) (L : Int),
        Chain start endP
          ((chunkLoop est mt title level endP fuel pg cs part acc).1
            ++ [{ title := T, level := L,
                  start_page := (chunkLoop est mt title level endP fuel pg cs part acc).2.1,
                  end_page := endP }]) := by
  intro fuel
  induction fuel with
  | zero =>
    intro pg cs part acc hpg hcp hce hsc hinv T L
    simp only [chunkLoop]
    rcases hinv with ⟨rfl, rfl⟩ | hch
    · rw [List.nil_append]
      exact chain_singleton_iff.mpr ⟨rfl, rfl, hce⟩
    · refine chain_append hch ?_
      have h1 : cs - 1 + 1 = cs := by omega
      rw [h1]
      exact chain_singleton_iff.mpr ⟨rfl, rfl, hce⟩
  | succ n ih =>
    intro pg cs part acc hpg hcp hce hsc hinv T L
    simp only [chunkLoop]
    split
    · rename_i hcond
      refine ih (pg + 1) pg (part + 1) _ (by push_cast at hpg ⊢; omega)
        (by omega) (by push_cast at hpg; omega) (by omega) ?_ T L
      right
      rcases hinv with ⟨rfl, rfl⟩ | hch
      · rw [List.nil_append]
        exact chain_singleton_iff.mpr ⟨rfl, rfl, by omega⟩
      · refine chain_append hch ?_
        have h1 : cs - 1 + 1 = cs := by omega
        rw [h1]
        exact chain_singleton_iff.mpr ⟨rfl, rfl, by omega⟩
    · exact ih (pg + 1) cs part acc (by push_cast at hpg ⊢; omega)
        (by omega) hce hsc hinv T L

/-! ## Measure of a chain of sections at a fixed level -/

theorem chain_mSum (B : Nat) (deepest lvl : Int) :
    ∀ (secs : List TOCSection) (lo hi : Int), Chain lo hi secs →
      (∀ p ∈ secs, p.level = lvl) →
      (secs.map (mSec B deepest)).sum
          + secs.length * B ^ (deepest + 1 - lvl).toNat
        = 2 * (hi + 1 - lo).toNat * B ^ (deepest + 1 - lvl).toNat := by
  intro secs
  induction secs with
  | nil => intro lo hi h _; exact absurd rfl (chain_ne_nil h)
  | cons s rest ih =>
    intro lo hi h hlvl
    cases rest with
    | nil =>
      rcases chain_singleton_iff.mp h with ⟨hs, he, hle⟩
      have hl : s.level = lvl := hlvl s (List.mem_cons_self _ _)
      simp only [List.map_cons, List.map_nil, List.sum_cons, List.sum_nil,
        List.length_cons, List.length_nil, mSec, expo, lenNat, hl, hs, he]
      have hK : 1 ≤ (hi + 1 - lo).toNat := by omega
      calc (2 * (hi + 1 - lo).toNat - 1) * B ^ (deepest + 1 - lvl).toNat + 0
            + (0 + 1) * B ^ (deepest + 1 - lvl).toNat
          = ((2 * (hi + 1 - lo).toNat - 1) + 1) * B ^ (deepest + 1 - lvl).toNat := by
            ring
        _ = 2 * (hi + 1 - lo).toNat * B ^ (deepest + 1 - lvl).toNat := by
            rw [show 2 * (hi + 1 - lo).toNat - 1 + 1 = 2 * (hi + 1 - lo).toNat by omega]
    | cons s2 rest2 =>
      rcases chain_cons₂_iff.mp h with ⟨hs, hle, hrest⟩
      have hl : s.level = lvl := hlvl s (List.mem_cons_self _ _)
      have hihi := ih (s.end_page + 1) hi hrest
        (fun p hp => hlvl p (List.mem_cons_of_mem s hp))
      have hendhi : s.end_page + 1 ≤ hi + 1 := by
        have := chain_le hrest
        omega
      have hK : (hi + 1 - lo).toNat
          = (s.end_page + 1 - lo).toNat + (hi + 1 - (s.end_page + 1)).toNat := by
        omega
      have hl1 : 1 ≤ (s.end_page + 1 - lo).toNat := by omega
      simp only [List.map_cons, List.sum_cons, List.length_cons, mSec, expo, lenNat,
        hl, hs]
      calc (2 * (s.end_page + 1 - lo).toNat - 1) * B ^ (deepest + 1 - lvl).toNat
            + ((s2 :: rest2).map (mSec B deepest)).sum
            + ((s2 :: rest2).length + 1) * B ^ (deepest + 1 - lvl).toNat
          = ((2 * (s.end_page + 1 - lo).toNat - 1) + 1) * B ^ (deepest + 1 - lvl).toNat
            + (((s2 :: rest2).map (mSec B deepest)).sum
              + (s2 :: rest2).length * B ^ (deepest + 1 - lvl).toNat) := by ring
        _ = ((2 * (s.end_page + 1 - lo).toNat - 1) + 1) * B ^ (deepest + 1 - lvl).toNat
            + 2 * (hi + 1 - (s.end_page + 1)).toNat * B ^ (deepest + 1 - lvl).toNat := by
            rw [hihi]
        _ = 2 * (s.end_page + 1 - lo).toNat * B ^ (deepest + 1 - lvl).toNat
            + 2 * (hi + 1 - (s.end_page + 1)).toNat * B ^ (deepest + 1 - lvl).toNat := by
            rw [show 2 * (s.end_page + 1 - lo).toNat - 1 + 1
              = 2 * (s.end_page + 1 - lo).toNat by omega]
        _ = 2 * ((s.end_page + 1 - lo).toNat + (hi + 1 - (s.end_page + 1)).toNat)
            * B ^ (deepest + 1 - lvl).toNat := by ring
        _ = 2 * (hi + 1 - lo).toNat * B ^ (deepest + 1 - lvl).toNat := by rw [hK]

/-! ## Facts about chunkSection -/

theorem chunkSection_chain (est : Int → Int → Int) (mt : Int) (sec : TOCSection)
    (hnd : sec.start_page ≤ sec.end_page) :
    Chain sec.start_page sec.end_page (chunkSection est mt sec).1 := by
  simp only [chunkSection]
  exact chunkLoop_chain est mt sec.title sec.level sec.end_page sec.start_page
    ((sec.end_page + 1 - sec.start_page).toNat) sec.start_page sec.start_page 1 []
    (by omega) le_rfl hnd le_rfl (Or.inl ⟨rfl, rfl⟩) _ _

theorem chunkSection_levels (est : Int → Int → Int) (mt : Int) (sec : TOCSection) :
    ∀ p ∈ (chunkSection est mt sec).1, p.level = sec.level := by
  simp only [chunkSection]
  intro p hp
  rcases List.mem_append.mp hp with h1 | h2
  · exact chunkLoop_levels est mt sec.title sec.level sec.end_page _ _ _ _ []
      (by intro q hq; cases hq) p h1
  · rcases List.mem_singleton.mp h2 with rfl
    rfl

theorem chunkSection_false_id (est : Int → Int → Int) (mt : Int) (sec : TOCSection)
    (hfalse : (chunkSection est mt sec).2 = false) :
    (chunkSection est mt sec).1 = [sec] := by
  simp only [chunkSection, decide_eq_false_iff_not, not_lt] at hfalse ⊢
  have hmono := chunkLoop_partMono est mt sec.title sec.level sec.end_page
    ((sec.end_page + 1 - sec.start_page).toNat) sec.start_page sec.start_page 1 []
  have hone : (chunkLoop est mt sec.title sec.level sec.end_page
      ((sec.end_page + 1 - sec.start_page).toNat) sec.start_page sec.start_page 1 []).2.2
      = 1 := by omega
  have hframe := chunkLoop_frame est mt sec.title sec.level sec.end_page
    ((sec.end_page + 1 - sec.start_page).toNat) sec.start_page sec.start_page 1 [] hone
  rw [hframe.1, hframe.2, if_neg (by omega)]
  rfl

theorem chunkSection_single_page (est : Int → Int → Int) (mt : Int) (sec : TOCSection)
    (hnd : sec.start_page ≤ sec.end_page)
    (hover : mt < est sec.start_page sec.end_page)
    (hone : (chunkSection est mt sec).1 = [sec]) :
    sec.start_page = sec.end_page := by
  by_contra hne
  have hlt : sec.start_page < sec.end_page := by omega
  simp only [chunkSection] at hone
  have hacc : (chunkLoop est mt sec.title sec.level sec.end_page
      ((sec.end_page + 1 - sec.start_page).toNat) sec.start_page sec.start_page 1 []).1
      = [] := by
    rcases hh : (chunkLoop est mt sec.title sec.level sec.end_page
        ((sec.end_page + 1 - sec.start_page).toNat) sec.start_page sec.start_page 1 []).1
      with _ | ⟨a, l⟩
    · rfl
    · rw [hh] at hone
      have := congrArg List.length hone
      simp [List.length_append] at this
  have hpart : (chunkLoop est mt sec.title sec.level sec.end_page
      ((sec.end_page + 1 - sec.start_page).toNat) sec.start_page sec.start_page 1 []).2.2
      = 1 := by
    have := chunkLoop_accLen est mt sec.title sec.level sec.end_page
      ((sec.end_page + 1 - sec.start_page).toNat) sec.start_page sec.start_page 1 []
      (by simp)
    rw [hacc] at this
    simpa using this
  have := chunkLoop_noclose est mt sec.title sec.level sec.end_page
    ((sec.end_page + 1 - sec.start_page).toNat) sec.start_page sec.start_page 1 []
    (by omega) (by omega) hpart
  exact this ⟨hover, hlt⟩

theorem chunkSection_measure (B : Nat) (deepest : Int) (est : Int → Int → Int)
    (mt : Int) (sec : TOCSection) (hB : 1 ≤ B) :
    mList B deepest (chunkSection est mt sec).1 ≤ mSec B deepest sec
      ∧ ((chunkSection est mt sec).2 = true →
         mList B deepest (chunkSection est mt sec).1 < mSec B deepest sec) := by
  by_cases hch : (chunkSection est mt sec).2 = true
  · have hpart : 1 < (chunkLoop est mt sec.title sec.level sec.end_page
        ((sec.end_page + 1 - sec.start_page).toNat) sec.start_page sec.start_page 1 []).2.2 := by
      simpa [chunkSection] using hch
    have hnd : sec.start_page ≤ sec.end_page := by
      by_contra hc
      have hz : (sec.end_page + 1 - sec.start_page).toNat = 0 := by omega
      rw [hz] at hpart
      simp [chunkLoop] at hpart
    have hchain := chunkSection_chain est mt sec hnd
    have hlvl := chunkSection_levels est mt sec
    have haccLen := chunkLoop_accLen est mt sec.title sec.level sec.end_page
      ((sec.end_page + 1 - sec.start_page).toNat) sec.start_page sec.start_page 1 []
      (by simp)
    have hklen : (chunkSection est mt sec).1.length
        = (chunkLoop est mt sec.title sec.level sec.end_page
            ((sec.end_page + 1 - sec.start_page).toNat) sec.start_page
            sec.start_page 1 []).1.length + 1 := by
      simp [chunkSection, List.length_append]
    have hk : 2 ≤ (chunkSection est mt sec).1.length := by omega
    have hsum := chain_mSum B deepest sec.level (chunkSection est mt sec).1
      sec.start_page sec.end_page hchain hlvl
    have hKpos : 1 ≤ (sec.end_page + 1 - sec.start_page).toNat := by omega
    have hX : 1 ≤ B ^ (deepest + 1 - sec.level).toNat := Nat.one_le_pow _ _ (by omega)
    have h2X : 2 * B ^ (deepest + 1 - sec.level).toNat
        ≤ (chunkSection est mt sec).1.length * B ^ (deepest + 1 - sec.level).toNat :=
      Nat.mul_le_mul_right _ hk
    have hstrict : mList B deepest (chunkSection est mt sec).1 < mSec B deepest sec := by
      have e2 : mList B deepest (chunkSection est mt sec).1
          + 2 * B ^ (deepest + 1 - sec.level).toNat
          ≤ 2 * (sec.end_page + 1 - sec.start_page).toNat
            * B ^ (deepest + 1 - sec.level).toNat := by
        calc mList B deepest (chunkSection est mt sec).1
              + 2 * B ^ (deepest + 1 - sec.level).toNat
            ≤ mList B deepest (chunkSection est mt sec).1
              + (chunkSection est mt sec).1.length
                * B ^ (deepest + 1 - sec.level).toNat :=
              Nat.add_le_add_left h2X _
          _ = 2 * (sec.end_page + 1 - sec.start_page).toNat
              * B ^ (deepest + 1 - sec.level).toNat := hsum
      have e3 : mList B deepest (chunkSection est mt sec).1
          + B ^ (deepest + 1 - sec.level).toNat
          < 2 * (sec.end_page + 1 - sec.start_page).toNat
            * B ^ (deepest + 1 - sec.level).toNat := by omega
      have e4 : 2 * (sec.end_page + 1 - sec.start_page).toNat
          * B ^ (deepest + 1 - sec.level).toNat
          = mSec B deepest sec + B ^ (deepest + 1 - sec.level).toNat := by
        simp only [mSec, lenNat, expo]
        calc 2 * (sec.end_page + 1 - sec.start_page).toNat
            * B ^ (deepest + 1 - sec.level).toNat
            = ((2 * (sec.end_page + 1 - sec.start_page).toNat - 1) + 1)
              * B ^ (deepest + 1 - sec.level).toNat := by
              rw [show 2 * (sec.end_page + 1 - sec.start_page).toNat - 1 + 1
                = 2 * (sec.end_page + 1 - sec.start_page).toNat by omega]
          _ = (2 * (sec.end_page + 1 - sec.start_page).toNat - 1)
              * B ^ (deepest + 1 - sec.level).toNat
              + B ^ (deepest + 1 - sec.level).toNat := by ring
      rw [e4] at e3
      exact Nat.lt_of_add_lt_add_right e3
    exact ⟨le_of_lt hstrict, fun _ => hstrict⟩
  · have hid := chunkSection_false_id est mt sec (by simpa using hch)
    rw [hid]
    constructor
    · simp [mList]
    · intro h; exact absurd h hch

/-! ## Facts about processSection -/

theorem childrenOf_mem {allE : List TOCEntry} {sec : TOCSection} {x : TOCEntry}
    (hx : x ∈ childrenOf allE sec) :
    x ∈ allE ∧ x.level = sec.level + 1
      ∧ (x.kind = "preamble" ∨ x.kind = "content")
      ∧ sec.start_page ≤ x.page ∧ x.page ≤ sec.end_page := by
  rw [childrenOf, List.mem_filter] at hx
  rcases hx with ⟨hmem, hcond⟩
  simp only [Bool.and_eq_true, decide_eq_true_eq, Bool.or_eq_true] at hcond
  exact ⟨hmem, hcond.1.1.1, hcond.1.1.2, hcond.1.2, hcond.2⟩

theorem childrenOf_sorted {allE : List TOCEntry} (sec : TOCSection)
    (hsort : allE.Pairwise (fun a b => a.page < b.page)) :
    (childrenOf allE sec).Pairwise (fun a b => a.page < b.page) :=
  hsort.filter _

theorem childrenOf_len_le (allE : List TOCEntry) (sec : TOCSection) :
    (childrenOf allE sec).length ≤ allE.length :=
  List.length_filter_le _ _

theorem processSection_ne_nil (allE : List TOCEntry) (deepest : Int)
    (est : Int → Int → Int) (mt : Int) (sec : TOCSection) :
    (processSection allE deepest est mt sec).1 ≠ [] := by
  simp only [processSection]
  split
  · simp
  · split
    · split
      · simp [chunkSection]
      · simp
    · intro hc
      rcases List.append_eq_nil.mp hc with ⟨_, h2⟩
      exact buildSections_ne_nil (by simp) sec.end_page h2

theorem processSection_chain (allE : List TOCEntry) (deepest : Int)
    (est : Int → Int → Int) (mt : Int) (sec : TOCSection)
    (hsort : allE.Pairwise (fun a b => a.page < b.page))
    (hnd : sec.start_page ≤ sec.end_page) :
    Chain sec.start_page sec.end_page (processSection allE deepest est mt sec).1 := by
  simp only [processSection]
  split
  · exact chain_singleton_iff.mpr ⟨rfl, rfl, hnd⟩
  · split
    · split
      · exact chunkSection_chain est mt sec hnd
      · exact chain_singleton_iff.mpr ⟨rfl, rfl, hnd⟩
    · rename_i c0 cs hc
      have hsc : (c0 :: cs).Pairwise (fun a b => a.page < b.page) := by
        rw [← hc]
        exact childrenOf_sorted sec hsort
      have hbnd : ∀ x ∈ c0 :: cs, sec.start_page ≤ x.page ∧ x.page ≤ sec.end_page := by
        intro x hx
        have := childrenOf_mem (hc ▸ hx)
        exact ⟨this.2.2.2.1, this.2.2.2.2⟩
      have hub : ∀ x ∈ c0 :: cs, x.page ≤ sec.end_page := fun x hx => (hbnd x hx).2
      have hc0 := hbnd c0 (List.mem_cons_self _ _)
      have hbc := buildSections_chain c0 cs sec.end_page hsc hub
      by_cases hintro : sec.start_page < c0.page
      · rw [if_pos hintro]
        have hfirst : Chain sec.start_page (c0.page - 1) [introSec sec c0.page] :=
          chain_singleton_iff.mpr ⟨rfl, rfl, by omega⟩
        have := chain_append hfirst (by rw [show c0.page - 1 + 1 = c0.page by omega]; exact hbc)
        exact this
      · rw [if_neg hintro, List.nil_append]
        have : c0.page = sec.start_page := by omega
        rw [← this]
        exact hbc

theorem processSection_lenBound (allE : List TOCEntry) (deepest : Int)
    (est : Int → Int → Int) (mt : Int) (sec : TOCSection) :
    ∀ p ∈ (processSection allE deepest est mt sec).1, lenNat p ≤ lenNat sec := by
  simp only [processSection]
  split
  · intro p hp; rcases List.mem_singleton.mp hp with rfl; exact le_rfl
  · split
    · split
      · by_cases hnd : sec.start_page ≤ sec.end_page
        · intro p hp
          have := chain_mem_bounds (chunkSection_chain est mt sec hnd) p hp
          simp only [lenNat]
          omega
        · have hz : (sec.end_page + 1 - sec.start_page).toNat = 0 := by omega
          intro p hp
          simp only [chunkSection, hz, chunkLoop, List.nil_append] at hp
          rcases List.mem_singleton.mp hp with rfl
          simp [lenNat]
      · intro p hp; rcases List.mem_singleton.mp hp with rfl; exact le_rfl
    · rename_i c0 cs hc
      have hbnd : ∀ x ∈ c0 :: cs, sec.start_page ≤ x.page ∧ x.page ≤ sec.end_page := by
        intro x hx
        have := childrenOf_mem (hc ▸ hx)
        exact ⟨this.2.2.2.1, this.2.2.2.2⟩
      have hc0 := hbnd c0 (List.mem_cons_self _ _)
      intro p hp
      rcases List.mem_append.mp hp with h1 | h2
      · split at h1
        · rcases List.mem_singleton.mp h1 with rfl
          simp only [lenNat, introSec]
          omega
        · cases h1
      · have := buildSections_bounds (c0 :: cs) sec.start_page sec.end_page hbnd p h2
        simp only [lenNat]
        omega

theorem processSection_single (allE : List TOCEntry) (deepest : Int)
    (est : Int → Int → Int) (mt : Int) (sec : TOCSection)
    (hnd : sec.start_page ≤ sec.end_page)
    (hone : (processSection allE deepest est mt sec).1 = [sec]) :
    est sec.start_page sec.end_page ≤ mt
      ∨ sec.start_page = sec.end_page
      ∨ (childrenOf allE sec = [] ∧ sec.level < deepest) := by
  simp only [processSection] at hone
  split at hone
  · left; assumption
  · rename_i hest
    split at hone
    · rename_i hcnil
      split at hone
      · right; left
        exact chunkSection_single_page est mt sec hnd (by omega) hone
      · right; right
        rename_i hdeeplt
        exact ⟨hcnil, by omega⟩
    · rename_i c0 cs hc
      exfalso
      split at hone
      · have hlen := congrArg List.length hone
        simp only [List.length_append, List.length_cons, List.length_singleton,
          buildSections_length] at hlen
        omega
      · rw [List.nil_append] at hone
        have hone2 : buildSections (c0 :: cs) sec.end_page = [sec] := hone
        have hmem : sec ∈ buildSections (c0 :: cs) sec.end_page := by
          rw [hone2]
          exact List.mem_singleton_self _
        rcases buildSections_mem (c0 :: cs) sec.end_page sec hmem with ⟨x, hx, hlvl, _, _⟩
        have := (childrenOf_mem (hc ▸ hx)).2.1
        omega

theorem pow_pred (B n : Nat) (hn : 1 ≤ n) : B ^ n = B * B ^ (n - 1) := by
  conv_lhs => rw [show n = n - 1 + 1 by omega]
  rw [pow_succ']

theorem processSection_measure (allE : List TOCEntry) (deepest : Int)
    (est : Int → Int → Int) (mt : Int) (B Lmax : Nat) (sec : TOCSection)
    (hdeep : ∀ x ∈ allE, x.level ≤ deepest)
    (hB : allE.length * Lmax + 2 ≤ B)
    (hL : lenNat sec ≤ Lmax) :
    mList B deepest (processSection allE deepest est mt sec).1 ≤ mSec B deepest sec
      ∧ ((processSection allE deepest est mt sec).2 = some true →
          mList B deepest (processSection allE deepest est mt sec).1
            < mSec B deepest sec) := by
  simp only [processSection]
  split
  · refine ⟨by simp [mList], ?_⟩
    intro h; simp at h
  · split
    · split
      · have hm := chunkSection_measure B deepest est mt sec (by omega)
        refine ⟨hm.1, ?_⟩
        intro h
        simp only [Option.some.injEq] at h
        exact hm.2 h
      · refine ⟨by simp [mList], ?_⟩
        intro h; simp at h
    · rename_i c0 cs hc
      have hx0 := childrenOf_mem (hc ▸ List.mem_cons_self c0 cs)
      have hL1 : 1 ≤ lenNat sec := by simp only [lenNat]; omega
      have hLm1 : 1 ≤ Lmax := le_trans hL1 hL
      have hlev : sec.level + 1 ≤ deepest := by
        have := hdeep c0 hx0.1
        omega
      have he2 : 2 ≤ expo deepest sec := by simp only [expo]; omega
      have hBe : B ^ expo deepest sec = B * B ^ (expo deepest sec - 1) :=
        pow_pred B _ (by omega)
      have hXpos : 0 < B ^ (expo deepest sec - 1) := Nat.pos_pow_of_pos _ (by omega)
      have hbnd : ∀ y ∈ c0 :: cs, sec.start_page ≤ y.page ∧ y.page ≤ sec.end_page := by
        intro y hy
        have := childrenOf_mem (hc ▸ hy)
        exact ⟨this.2.2.2.1, this.2.2.2.2⟩
      have hchildlvl : ∀ p ∈ buildSections (c0 :: cs) sec.end_page,
          mSec B deepest p
            ≤ (2 * lenNat sec - 1) * B ^ (expo deepest sec - 1) := by
        intro p hp
        rcases buildSections_mem (c0 :: cs) sec.end_page p hp with ⟨x, hxmem, hplvl, _, _⟩
        have hxc := childrenOf_mem (hc ▸ hxmem)
        have hexpo : expo deepest p = expo deepest sec - 1 := by
          simp only [expo, hplvl, hxc.2.1]
          omega
        have hlenp : lenNat p ≤ lenNat sec := by
          have := buildSections_bounds (c0 :: cs) sec.start_page sec.end_page hbnd p hp
          simp only [lenNat]
          omega
        simp only [mSec, hexpo]
        exact Nat.mul_le_mul (by omega) le_rfl
      have hsumchild : mList B deepest (buildSections (c0 :: cs) sec.end_page)
          ≤ (c0 :: cs).length
            * ((2 * lenNat sec - 1) * B ^ (expo deepest sec - 1)) := by
        simp only [mList]
        have hs := List.sum_le_card_nsmul
          ((buildSections (c0 :: cs) sec.end_page).map (mSec B deepest))
          ((2 * lenNat sec - 1) * B ^ (expo deepest sec - 1))
          (by
            intro x hx
            rcases List.mem_map.mp hx with ⟨p, hp, rfl⟩
            exact hchildlvl p hp)
        simpa [List.length_map, buildSections_length, smul_eq_mul] using hs
      have hNlen : (c0 :: cs).length ≤ allE.length := by
        rw [← hc]
        exact childrenOf_len_le allE sec
      have hsumN : mList B deepest (buildSections (c0 :: cs) sec.end_page)
          ≤ allE.length * ((2 * lenNat sec - 1) * B ^ (expo deepest sec - 1)) :=
        le_trans hsumchild (Nat.mul_le_mul_right _ hNlen)
      have hNB : allE.length < B := by
        have h1 : allE.length * 1 ≤ allE.length * Lmax :=
          Nat.mul_le_mul_left _ hLm1
        rw [Nat.mul_one] at h1
        omega
      have hmsec : mSec B deepest sec
          = (2 * lenNat sec - 1) * (B * B ^ (expo deepest sec - 1)) := by
        simp only [mSec, hBe]
      have hstrict : mList B deepest
          ((if sec.start_page < c0.page then [introSec sec c0.page] else [])
            ++ buildSections (c0 :: cs) sec.end_page)
          < mSec B deepest sec := by
        by_cases hintro : sec.start_page < c0.page
        · rw [if_pos hintro]
          have hmi : mSec B deepest (introSec sec c0.page)
              ≤ (2 * lenNat sec - 3) * (B * B ^ (expo deepest sec - 1)) := by
            have hleni : lenNat (introSec sec c0.page) ≤ lenNat sec - 1
                ∧ 1 ≤ lenNat (introSec sec c0.page) := by
              simp only [lenNat, introSec]
              omega
            have hexpoi : expo deepest (introSec sec c0.page) = expo deepest sec := rfl
            simp only [mSec, hexpoi, hBe]
            refine Nat.mul_le_mul ?_ le_rfl
            omega
          have hchild2B : mList B deepest (buildSections (c0 :: cs) sec.end_page)
              < 2 * (B * B ^ (expo deepest sec - 1)) := by
            have ha : allE.length * (2 * lenNat sec - 1)
                ≤ allE.length * (2 * Lmax) :=
              Nat.mul_le_mul_left _ (by omega)
            have hb : allE.length * (2 * Lmax) = 2 * (allE.length * Lmax) := by ring
            have hlt : allE.length * (2 * lenNat sec - 1) < 2 * B := by omega
            calc mList B deepest (buildSections (c0 :: cs) sec.end_page)
                ≤ allE.length
                  * ((2 * lenNat sec - 1) * B ^ (expo deepest sec - 1)) := hsumN
              _ = (allE.length * (2 * lenNat sec - 1))
                  * B ^ (expo deepest sec - 1) := by ring
              _ < (2 * B) * B ^ (expo deepest sec - 1) :=
                  (Nat.mul_lt_mul_right hXpos).mpr hlt
              _ = 2 * (B * B ^ (expo deepest sec - 1)) := by ring
          have hL2 : 2 ≤ lenNat sec := by
            simp only [lenNat]
            omega
          have hsplit : mList B deepest
              ([introSec sec c0.page] ++ buildSections (c0 :: cs) sec.end_page)
              = mSec B deepest (introSec sec c0.page)
                + mList B deepest (buildSections (c0 :: cs) sec.end_page) := by
            simp [mList]
          have heq : (2 * lenNat sec - 3) * (B * B ^ (expo deepest sec - 1))
              + 2 * (B * B ^ (expo deepest sec - 1)) = mSec B deepest sec := by
            rw [hmsec, ← Nat.add_mul,
              show 2 * lenNat sec - 3 + 2 = 2 * lenNat sec - 1 by omega]
          rw [hsplit]
          exact lt_of_lt_of_eq (Nat.add_lt_add_of_le_of_lt hmi hchild2B) heq
        · rw [if_neg hintro, List.nil_append]
          have hpos : 0 < (2 * lenNat sec - 1) * B ^ (expo deepest sec - 1) :=
            Nat.mul_pos (by omega) hXpos
          calc mList B deepest (buildSections (c0 :: cs) sec.end_page)
              ≤ allE.length
                * ((2 * lenNat sec - 1) * B ^ (expo deepest sec - 1)) := hsumN
            _ < B * ((2 * lenNat sec - 1) * B ^ (expo deepest sec - 1)) :=
                (Nat.mul_lt_mul_right hpos).mpr hNB
            _ = (2 * lenNat sec - 1) * (B * B ^ (expo deepest sec - 1)) := by ring
            _ = mSec B deepest sec := by rw [hmsec]
      exact ⟨le_of_lt hstrict, fun _ => hstrict⟩

/-! ## Facts about one refinement pass -/

theorem onePassGo_length (allE : List TOCEntry) (deepest : Int)
    (est : Int → Int → Int) (mt : Int) :
    ∀ (secs : List TOCSection) (ch : Bool),
      secs.length ≤ (onePassGo allE deepest est mt secs ch).1.length := by
  intro secs
  induction secs with
  | nil => intro ch; simp [onePassGo]
  | cons sec rest ih =>
    intro ch
    simp only [onePassGo, List.length_append, List.length_cons]
    have h1 : 1 ≤ (processSection allE deepest est mt sec).1.length := by
      have := processSection_ne_nil allE deepest est mt sec
      cases hh : (processSection allE deepest est mt sec).1 with
      | nil => exact absurd hh this
      | cons a l => simp
    have h2 := ih ((processSection allE deepest est mt sec).2.getD ch)
    omega

theorem onePassGo_stable (allE : List TOCEntry) (deepest : Int)
    (est : Int → Int → Int) (mt : Int) :
    ∀ (secs : List TOCSection) (ch : Bool),
      (onePassGo allE deepest est mt secs ch).1 = secs →
      ∀ sec ∈ secs, (processSection allE deepest est mt sec).1 = [sec] := by
  intro secs
  induction secs with
  | nil => intro ch _ sec hsec; cases hsec
  | cons s rest ih =>
    intro ch heq sec hsec
    simp only [onePassGo] at heq
    have hlen := congrArg List.length heq
    simp only [List.length_append, List.length_cons] at hlen
    have htail := onePassGo_length allE deepest est mt rest
      ((processSection allE deepest est mt s).2.getD ch)
    have hne := processSection_ne_nil allE deepest est mt s
    have hone : (processSection allE deepest est mt s).1.length = 1 := by
      cases hh : (processSection allE deepest est mt s).1 with
      | nil => exact absurd hh hne
      | cons a l =>
        rw [hh] at hlen
        simp only [List.length_cons] at hlen ⊢
        omega
    rcases hp : (processSection allE deepest est mt s).1 with _ | ⟨a, l⟩
    · exact absurd hp hne
    · have hl0 : l = [] := by
        rw [hp] at hone
        simp at hone
        exact hone
      subst hl0
      rw [hp] at heq
      simp only [List.singleton_append, List.cons.injEq] at heq
      rcases heq with ⟨rfl, htl⟩
      rcases List.mem_cons.mp hsec with rfl | hmem
      · rw [hp]
      · exact ih _ htl sec hmem

theorem onePassGo_chain (allE : List TOCEntry) (deepest : Int)
    (est : Int → Int → Int) (mt : Int)
    (hsort : allE.Pairwise (fun a b => a.page < b.page)) :
    ∀ (secs : List TOCSection) (lo hi : Int) (ch : Bool),
      Chain lo hi secs → Chain lo hi (onePassGo allE deepest est mt secs ch).1 := by
  intro secs
  induction secs with
  | nil => intro lo hi ch h; exact absurd rfl (chain_ne_nil h)
  | cons s rest ih =>
    intro lo hi ch h
    cases rest with
    | nil =>
      rcases chain_singleton_iff.mp h with ⟨hs, he, hle⟩
      simp only [onePassGo, List.append_nil]
      have := processSection_chain allE deepest est mt s hsort (by omega)
      rw [hs, he] at this
      exact this
    | cons s2 rest2 =>
      rcases chain_cons₂_iff.mp h with ⟨hs, hle, hrest⟩
      simp only [onePassGo]
      have hhead := processSection_chain allE deepest est mt s hsort (by omega)
      rw [hs] at hhead
      have htail := ih (s.end_page + 1) hi
        ((processSection allE deepest est mt s).2.getD ch) hrest
      exact chain_append hhead htail

theorem onePassGo_lenBound (allE : List TOCEntry) (deepest : Int)
    (est : Int → Int → Int) (mt : Int) (Lmax : Nat) :
    ∀ (secs : List TOCSection) (ch : Bool),
      (∀ sec ∈ secs, lenNat sec ≤ Lmax) →
      ∀ p ∈ (onePassGo allE deepest est mt secs ch).1, lenNat p ≤ Lmax := by
  intro secs
  induction secs with
  | nil => intro ch _ p hp; simp [onePassGo] at hp
  | cons s rest ih =>
    intro ch hb p hp
    simp only [onePassGo] at hp
    rcases List.mem_append.mp hp with h1 | h2
    · exact le_trans (processSection_lenBound allE deepest est mt s p h1)
        (hb s (List.mem_cons_self _ _))
    · exact ih _ (fun sec hsec => hb sec (List.mem_cons_of_mem s hsec)) p h2

theorem onePassGo_measure (allE : List TOCEntry) (deepest : Int)
    (est : Int → Int → Int) (mt : Int) (B Lmax : Nat)
    (hdeep : ∀ x ∈ allE, x.level ≤ deepest)
    (hB : allE.length * Lmax + 2 ≤ B) :
    ∀ (secs : List TOCSection) (ch : Bool),
      (∀ sec ∈ secs, lenNat sec ≤ Lmax) →
      mList B deepest (onePassGo allE deepest est mt secs ch).1
          ≤ mList B deepest secs
        ∧ ((onePassGo allE deepest est mt secs ch).2 = true →
            ch = true
              ∨ mList B deepest (onePassGo allE deepest est mt secs ch).1
                  < mList B deepest secs) := by
  intro secs
  induction secs with
  | nil =>
    intro ch _
    refine ⟨le_rfl, ?_⟩
    intro h
    left
    simpa [onePassGo] using h
  | cons s rest ih =>
    intro ch hb
    have hps := processSection_measure allE deepest est mt B Lmax s hdeep hB
      (hb s (List.mem_cons_self _ _))
    have hrest := ih ((processSection allE deepest est mt s).2.getD ch)
      (fun sec hsec => hb sec (List.mem_cons_of_mem s hsec))
    have hsplit : mList B deepest (onePassGo allE deepest est mt (s :: rest) ch).1
        = mList B deepest (processSection allE deepest est mt s).1
          + mList B deepest
            (onePassGo allE deepest est mt rest
              ((processSection allE deepest est mt s).2.getD ch)).1 := by
      simp [onePassGo, mList]
    have hconssum : mList B deepest (s :: rest)
        = mSec B deepest s + mList B deepest rest := by
      simp [mList]
    constructor
    · rw [hsplit, hconssum]
      exact Nat.add_le_add hps.1 hrest.1
    · intro hch
      have hch2 : (onePassGo allE deepest est mt rest
          ((processSection allE deepest est mt s).2.getD ch)).2 = true := by
        simpa [onePassGo] using hch
      rcases hrest.2 hch2 with hgd | hlt
      · rcases ho : (processSection allE deepest est mt s).2 with _ | b
        · rw [ho] at hgd
          left
          simpa using hgd
        · cases b with
          | false =>
            rw [ho] at hgd
            simp at hgd
          | true =>
            right
            rw [hsplit, hconssum]
            exact Nat.add_lt_add_of_lt_of_le (hps.2 ho) hrest.1
      · right
        rw [hsplit, hconssum]
        exact Nat.add_lt_add_of_le_of_lt hps.1 hlt

/-! ## The while loop preserves the partition -/

theorem budgetLoop_chain (allE : List TOCEntry) (deepest : Int)
    (est : Int → Int → Int) (mt : Int)
    (hsort : allE.Pairwise (fun a b => a.page < b.page)) :
    ∀ (fuel : Nat) (secs : List TOCSection) (lo hi : Int),
      Chain lo hi secs → Chain lo hi (budgetLoop allE deepest est mt fuel secs) := by
  intro fuel
  induction fuel with
  | zero => intro secs lo hi h; exact h
  | succ n ih =>
    intro secs lo hi h
    simp only [budgetLoop]
    split
    · exact ih _ lo hi (onePassGo_chain allE deepest est mt hsort secs lo hi false h)
    · exact onePassGo_chain allE deepest est mt hsort secs lo hi false h

/-! ## Helpers for the start of the content range -/

theorem findStart_pc (l : List TOCEntry)
    (h : ∃ e ∈ l, e.kind = "preamble" ∨ e.kind = "content") :
    ∃ f ∈ l, (f.kind = "preamble" ∨ f.kind = "content")
      ∧ (findStart l).1 = f.page := by
  induction l with
  | nil => rcases h with ⟨e, he, _⟩; cases he
  | cons e rest ih =>
    by_cases hpc : e.kind = "preamble" ∨ e.kind = "content"
    · refine ⟨e, List.mem_cons_self _ _, hpc, ?_⟩
      simp only [findStart]
      rw [if_pos (by simpa using hpc)]
    · have hrest : ∃ x ∈ rest, x.kind = "preamble" ∨ x.kind = "content" := by
        rcases h with ⟨x, hx, hxpc⟩
        rcases List.mem_cons.mp hx with rfl | hx2
        · exact absurd hxpc hpc
        · exact ⟨x, hx2, hxpc⟩
      rcases ih hrest with ⟨f, hf, hfpc, heq⟩
      refine ⟨f, List.mem_cons_of_mem e hf, hfpc, ?_⟩
      simp only [findStart]
      rw [if_neg (by simpa using hpc)]
      exact heq

theorem foldl_max_level_ge (l : List TOCEntry) :
    ∀ (a : Int), a ≤ l.foldl (fun m x => max m x.level) a
      ∧ ∀ x ∈ l, x.level ≤ l.foldl (fun m x => max m x.level) a := by
  induction l with
  | nil => intro a; exact ⟨le_rfl, by intro x hx; cases hx⟩
  | cons e rest ih =>
    intro a
    simp only [List.foldl_cons]
    constructor
    · exact le_trans (le_max_left a e.level) (ih (max a e.level)).1
    · intro x hx
      rcases List.mem_cons.mp hx with rfl | hx2
      · exact le_trans (le_max_right a x.level) (ih (max a x.level)).1
      · exact (ih (max a e.level)).2 x hx2

theorem deepestLevel_ge (allE : List TOCEntry) :
    ∀ x ∈ allE, x.level ≤ deepestLevel allE := by
  intro x hx
  cases allE with
  | nil => cases hx
  | cons e rest =>
    simp only [deepestLevel]
    rcases List.mem_cons.mp hx with rfl | hx2
    · exact (foldl_max_level_ge rest x.level).1
    · exact (foldl_max_level_ge rest e.level).2 x hx2

theorem lmaxOf_ge (secs : List TOCSection) :
    ∀ sec ∈ secs, lenNat sec ≤ lmaxOf secs := by
  induction secs with
  | nil => intro sec hsec; cases hsec
  | cons s rest ih =>
    intro sec hsec
    simp only [lmaxOf, List.map_cons, List.foldr_cons]
    rcases List.mem_cons.mp hsec with rfl | h2
    · exact le_max_left _ _
    · exact le_trans (ih sec h2) (le_max_right _ _)

/-! ## Claim C2: budget enforcement output -/

/-- C2 counterexample.  On a 10-page document with a level-1 content
entry at page 0 and a level-3 entry at page 5, max_level 1,
max_tokens 10 and a constant estimator returning 100 (constant, hence
monotonic), resolve_content_sections returns the single ten-page
section unchanged: it exceeds the budget, is not a single page, and is
neither subdivided nor chunked, because it has no level-2 children
while level 3 exists elsewhere. -/
theorem c2_counterexample :
    resolveContentSections
        [{ level := 1, title := "A", page := 0 }, { level := 3, title := "B", page := 5 }]
        10 1 (some 10) (fun _ _ => 100)
      = [{ title := "A", level := 1, start_page := 0, end_page := 9 }]
    ∧ ¬ (∀ sec ∈ resolveContentSections
        [{ level := 1, title := "A", page := 0 }, { level := 3, title := "B", page := 5 }]
        10 1 (some 10) (fun _ _ => 100),
        ((fun _ _ => (100 : Int)) sec.start_page sec.end_page ≤ 10
          ∨ sec.start_page = sec.end_page)) := by decide

/-- C2 as amended.  Any section list the refinement pass maps to
itself (in particular the true fixed points the loop is meant to
reach) consists of sections that fit the budget, or are a single page,
or have no child entries one level deeper inside their span while
their level is below the deepest outline level.  The phase output
itself need not satisfy the bound, both because of the keep branch
exhibited by the counterexample and because a late single-chunk
rewrite resets the changed flag of the pass. -/
theorem c2_budget_fixpoint (allE : List TOCEntry) (deepest : Int)
    (est : Int → Int → Int) (mt : Int) (S : List TOCSection)
    (hnd : ∀ sec ∈ S, sec.start_page ≤ sec.end_page)
    (hstable : (onePass allE deepest est mt S).1 = S) :
    ∀ sec ∈ S, est sec.start_page sec.end_page ≤ mt
      ∨ sec.start_page = sec.end_page
      ∨ (childrenOf allE sec = [] ∧ sec.level < deepest) := by
  intro sec hsec
  have hone := onePassGo_stable allE deepest est mt S false hstable sec hsec
  exact processSection_single allE deepest est mt sec (hnd sec hsec) hone

/-- Witness for C2 as amended at a concrete stable list. -/
theorem c2_budget_fixpoint_witness :
    (∀ sec ∈ [({ title := "A", level := 1, start_page := 0, end_page := 1 } : TOCSection)],
      sec.start_page ≤ sec.end_page)
    ∧ (onePass [] 1 (fun _ _ => 0) 5
        [({ title := "A", level := 1, start_page := 0, end_page := 1 } : TOCSection)]).1
      = [({ title := "A", level := 1, start_page := 0, end_page := 1 } : TOCSection)]
    ∧ ∀ sec ∈ [({ title := "A", level := 1, start_page := 0, end_page := 1 } : TOCSection)],
        (fun _ _ => (0 : Int)) sec.start_page sec.end_page ≤ 5
          ∨ sec.start_page = sec.end_page
          ∨ (childrenOf [] sec = [] ∧ sec.level < 1) :=
  ⟨by decide, by decide,
    c2_budget_fixpoint [] 1 (fun _ _ => 0) 5
      [({ title := "A", level := 1, start_page := 0, end_page := 1 } : TOCSection)]
      (by decide) (by decide)⟩

/-! ## Claim C3: termination of the refinement loop -/

/-- Pass iteration: the section list after n passes of the budget
subdivider, as run by resolve_content_sections with the deepest level
computed from the outline. -/
def passIter (allE : List TOCEntry) (est : Int → Int → Int) (mt : Int) :
    Nat → List TOCSection → List TOCSection
  | 0, s => s
  | n + 1, s => passIter allE est mt n (onePass allE (deepestLevel allE) est mt s).1

theorem budget_terminates_aux (allE : List TOCEntry) (est : Int → Int → Int)
    (mt : Int) (B Lmax : Nat)
    (hB : allE.length * Lmax + 2 ≤ B) :
    ∀ (m : Nat) (s : List TOCSection),
      (∀ sec ∈ s, lenNat sec ≤ Lmax) →
      mList B (deepestLevel allE) s ≤ m →
      ∃ n, (onePass allE (deepestLevel allE) est mt (passIter allE est mt n s)).2
        = false := by
  intro m
  induction m with
  | zero =>
    intro s hlen hm
    rcases hch : (onePass allE (deepestLevel allE) est mt s).2 with _ | _
    · exact ⟨0, hch⟩
    · exfalso
      have hmeas := onePassGo_measure allE (deepestLevel allE) est mt B Lmax
        (deepestLevel_ge allE) hB s false hlen
      rcases hmeas.2 hch with hgd | hlt
      · simp at hgd
      · omega
  | succ m ih =>
    intro s hlen hm
    rcases hch : (onePass allE (deepestLevel allE) est mt s).2 with _ | _
    · exact ⟨0, hch⟩
    · have hmeas := onePassGo_measure allE (deepestLevel allE) est mt B Lmax
        (deepestLevel_ge allE) hB s false hlen
      rcases hmeas.2 hch with hgd | hlt
      · simp at hgd
      · have hlen2 := onePassGo_lenBound allE (deepestLevel allE) est mt Lmax s false hlen
        rcases ih (onePassGo allE (deepestLevel allE) est mt s false).1 hlen2 (by omega)
          with ⟨n, hn⟩
        exact ⟨n + 1, hn⟩

/-- C3.  For every finite outline, every positive max_tokens and every
pure estimator, the iterative refinement of the budget subdivider
terminates: from any starting section list, some pass reports no
change, so there is no infinite sequence of passes each of which marks
the pass as changed. -/
theorem c3_budget_loop_terminates (allE : List TOCEntry) (est : Int → Int → Int)
    (mt : Int) (s : List TOCSection) (hmt : 0 < mt) :
    ∃ n, (onePass allE (deepestLevel allE) est mt (passIter allE est mt n s)).2
      = false :=
  budget_terminates_aux allE est mt (allE.length * lmaxOf s + 2) (lmaxOf s)
    le_rfl (mList (allE.length * lmaxOf s + 2) (deepestLevel allE) s) s
    (lmaxOf_ge s) le_rfl

/-- Witness for C3 at a concrete outline, estimator and budget. -/
theorem c3_budget_loop_terminates_witness :
    (0 : Int) < 1
    ∧ ∃ n, (onePass [({ level := 1, title := "A", page := 0, kind := "content" } : TOCEntry)]
        (deepestLevel [({ level := 1, title := "A", page := 0, kind := "content" } : TOCEntry)])
        (fun _ _ => 7) 1
        (passIter [({ level := 1, title := "A", page := 0, kind := "content" } : TOCEntry)]
          (fun _ _ => 7) 1 n
          [({ title := "A", level := 1, start_page := 0, end_page := 3 } : TOCSection)])).2
      = false :=
  ⟨by decide,
    c3_budget_loop_terminates
      [({ level := 1, title := "A", page := 0, kind := "content" } : TOCEntry)]
      (fun _ _ => 7) 1
      [({ title := "A", level := 1, start_page := 0, end_page := 3 } : TOCSection)]
      (by decide)⟩

/-! ## Claim C4: idempotence of budget enforcement -/

/-- C4.  The budget-enforcement phase is not idempotent.  With the
outline holding level-2 children of A at pages 0 and 3 and level-3
children at pages 0 and 2, budget 10, and an estimator that reports
100 tokens exactly for the spans 0..5, 0..2 and 6..6: the first run
subdivides A into A1 and A2 and then, while rewriting the oversized
single-page B as one chunk, executes the assignment changed equal
part greater-than 1, which resets the changed flag to false and ends
the loop early.  A second run then subdivides the oversized A1 using
the level-3 entries, so applying the phase to its own output changes
it.  The assignment overwrites the flag set by the subdivision of A;
retaining earlier changes (as the spec describes the pass) would make
the loop continue to the true fixed point. -/
theorem c4_budget_not_idempotent :
    enforceBudget
        [ { level := 2, title := "A1", page := 0, kind := "content" },
          { level := 2, title := "A2", page := 3, kind := "content" },
          { level := 3, title := "A1a", page := 0, kind := "content" },
          { level := 3, title := "A1b", page := 2, kind := "content" } ]
        (fun s e => if (s = 0 ∧ e = 5) ∨ (s = 0 ∧ e = 2) ∨ (s = 6 ∧ e = 6) then 100 else 0)
        10
        (enforceBudget
          [ { level := 2, title := "A1", page := 0, kind := "content" },
            { level := 2, title := "A2", page := 3, kind := "content" },
            { level := 3, title := "A1a", page := 0, kind := "content" },
            { level := 3, title := "A1b", page := 2, kind := "content" } ]
          (fun s e => if (s = 0 ∧ e = 5) ∨ (s = 0 ∧ e = 2) ∨ (s = 6 ∧ e = 6) then 100 else 0)
          10
          [ { title := "A", level := 1, start_page := 0, end_page := 5 },
            { title := "B", level := 3, start_page := 6, end_page := 6 } ])
      ≠ enforceBudget
        [ { level := 2, title := "A1", page := 0, kind := "content" },
          { level := 2, title := "A2", page := 3, kind := "content" },
          { level := 3, title := "A1a", page := 0, kind := "content" },
          { level := 3, title := "A1b", page := 2, kind := "content" } ]
        (fun s e => if (s = 0 ∧ e = 5) ∨ (s = 0 ∧ e = 2) ∨ (s = 6 ∧ e = 6) then 100 else 0)
        10
        [ { title := "A", level := 1, start_page := 0, end_page := 5 },
          { title := "B", level := 3, start_page := 6, end_page := 6 } ] := by decide

/-! ## Claim C1: the coverage invariant -/

theorem classifyAll_pairwise (entries : List TOCEntry)
    (h : entries.Pairwise (fun a b => a.page < b.page)) :
    (classifyAll entries).Pairwise (fun a b => a.page < b.page) :=
  List.Pairwise.map _ (fun _ _ hab => hab) h

theorem classifyAll_orig (entries : List TOCEntry) (y : TOCEntry)
    (hy : y ∈ classifyAll entries) :
    ∃ e ∈ entries, y.level = e.level ∧ y.page = e.page := by
  rcases List.mem_map.mp hy with ⟨e, he, rfl⟩
  exact ⟨e, he, rfl, rfl⟩

/-- C1 counterexample.  With a level-1 front-matter entry at page 0
and a level-2 preamble entry at page 3 on a 10-page document, pages in
strictly ascending order and a non-degenerate content range 0..9,
running resolve_content_sections with max_level 2 returns a single
section starting at page 3: pages 0 to 2 of the content range are
covered by no section. -/
theorem c1_counterexample :
    resolveContentPages
        [ { level := 1, title := "Cover", page := 0 },
          { level := 2, title := "Preface", page := 3 } ] 10
      = { start_page := 0, end_page := 9, total_pages := 10,
          skipped_front := ["p.0: Cover [front]"], skipped_back := [] }
    ∧ resolveContentSections
        [ { level := 1, title := "Cover", page := 0 },
          { level := 2, title := "Preface", page := 3 } ] 10 2 none (fun _ _ => 0)
      = [{ title := "Preface", level := 2, start_page := 3, end_page := 9 }]
    ∧ chainB 0 9
        (resolveContentSections
          [ { level := 1, title := "Cover", page := 0 },
            { level := 2, title := "Preface", page := 3 } ] 10 2 none (fun _ _ => 0))
      = false := by decide

/-- C1 as amended.  For every input whose outline entries are in
strictly ascending page order with positive levels, whose resolved
content range is non-degenerate, and with the default max_level 1, the
section list returned by resolve_content_sections forms a chain over
the content range: sorted by start page, mutually non-overlapping, and
covering exactly the range with no gaps; with max_level 2 or more a
gap can precede the first section, as the counterexample shows. -/
theorem c1_partition (entries : List TOCEntry) (totalPages : Int)
    (maxTokens : Option Int) (est : Int → Int → Int)
    (hsort : entries.Pairwise (fun a b => a.page < b.page))
    (hlev : ∀ e ∈ entries, 1 ≤ e.level)
    (hnd : (resolveContentPages entries totalPages).start_page
            ≤ (resolveContentPages entries totalPages).end_page) :
    Chain (resolveContentPages entries totalPages).start_page
        (resolveContentPages entries totalPages).end_page
        (resolveContentSections entries totalPages 1 maxTokens est)
      ∧ (resolveContentSections entries totalPages 1 maxTokens est).Pairwise
          (fun a b => a.end_page < b.start_page) := by
  have hchain : Chain (resolveContentPages entries totalPages).start_page
      (resolveContentPages entries totalPages).end_page
      (resolveContentSections entries totalPages 1 maxTokens est) := by
    cases entries with
    | nil => exact chain_singleton_iff.mpr ⟨rfl, rfl, hnd⟩
    | cons x xs =>
      have hsortC := classifyAll_pairwise (x :: xs) hsort
      simp only [resolveContentSections]
      split
      · exact chain_singleton_iff.mpr ⟨rfl, rfl, hnd⟩
      · rename_i hne
        rcases hql : (classifyAll (x :: xs)).filter
            (fun e => e.level ≤ 1 && (e.kind = "preamble" || e.kind = "content")
              && (resolveContentPages (x :: xs) totalPages).start_page ≤ e.page
              && e.page ≤ (resolveContentPages (x :: xs) totalPages).end_page)
          with _ | ⟨c, cs⟩
        · exact absurd hql hne
        rw [hql]
        have hmemCE : ∀ y ∈ c :: cs, y ∈ classifyAll (x :: xs)
            ∧ y.level ≤ 1 ∧ (y.kind = "preamble" ∨ y.kind = "content")
            ∧ (resolveContentPages (x :: xs) totalPages).start_page ≤ y.page
            ∧ y.page ≤ (resolveContentPages (x :: xs) totalPages).end_page := by
          intro y hy
          rw [← hql] at hy
          have hmf := List.mem_filter.mp hy
          refine ⟨hmf.1, ?_⟩
          have hc := hmf.2
          simp only [Bool.and_eq_true, decide_eq_true_eq, Bool.or_eq_true] at hc
          exact ⟨hc.1.1.1, hc.1.1.2, hc.1.2, hc.2⟩
        have hsortCE : (c :: cs).Pairwise (fun a b => a.page < b.page) := by
          rw [← hql]
          exact hsortC.filter _
        have hlev1 : ∀ y ∈ c :: cs, y.level = 1 := by
          intro y hy
          have h1 := (hmemCE y hy).2.1
          rcases classifyAll_orig (x :: xs) y (hmemCE y hy).1 with ⟨e, he, heq, _⟩
          have := hlev e he
          omega
        have hcr_start : (resolveContentPages (x :: xs) totalPages).start_page
            = (findStart ((classifyAll (x :: xs)).filter (fun e => e.level = 1))).1 :=
          rfl
        have hctop : c ∈ (classifyAll (x :: xs)).filter (fun e => e.level = 1) := by
          apply List.mem_filter.mpr
          refine ⟨(hmemCE c (List.mem_cons_self _ _)).1, ?_⟩
          simp [hlev1 c (List.mem_cons_self _ _)]
        rcases findStart_pc ((classifyAll (x :: xs)).filter (fun e => e.level = 1))
            ⟨c, hctop, (hmemCE c (List.mem_cons_self _ _)).2.2.1⟩
          with ⟨f, hftop, hfpc, hfpage⟩
        have hfl : (resolveContentPages (x :: xs) totalPages).start_page = f.page := by
          rw [hcr_start, hfpage]
        have hflev : f.level = 1 := by
          have := (List.mem_filter.mp hftop).2
          simpa using this
        have hfmem : f ∈ c :: cs := by
          rw [← hql]
          apply List.mem_filter.mpr
          refine ⟨(List.mem_filter.mp hftop).1, ?_⟩
          simp only [Bool.and_eq_true, decide_eq_true_eq, Bool.or_eq_true]
          exact ⟨⟨⟨by omega, hfpc⟩, by omega⟩, by omega⟩
        have hcl : c.page = (resolveContentPages (x :: xs) totalPages).start_page := by
          rcases List.mem_cons.mp hfmem with rfl | hfcs
          · omega
          · have hlt := (List.pairwise_cons.mp hsortCE).1 f hfcs
            have := (hmemCE c (List.mem_cons_self _ _)).2.2.2.1
            omega
        have hub : ∀ y ∈ c :: cs,
            y.page ≤ (resolveContentPages (x :: xs) totalPages).end_page :=
          fun y hy => (hmemCE y hy).2.2.2.2
        have hchainBS : Chain (resolveContentPages (x :: xs) totalPages).start_page
            (resolveContentPages (x :: xs) totalPages).end_page
            (buildSections (c :: cs)
              (resolveContentPages (x :: xs) totalPages).end_page) := by
          have := buildSections_chain c cs
            (resolveContentPages (x :: xs) totalPages).end_page hsortCE hub
          rw [hcl] at this
          exact this
        split
        · exact hchainBS
        · exact budgetLoop_chain (classifyAll (x :: xs)) _ est _ hsortC _ _ _ _ hchainBS
  exact ⟨hchain, chain_sorted_disjoint hchain⟩

/-- Witness for C1 as amended at a concrete two-chapter outline with
the budget enabled. -/
theorem c1_partition_witness :
    ([ ({ level := 1, title := "Chapter 1", page := 0 } : TOCEntry),
       ({ level := 1, title := "Chapter 2", page := 2 } : TOCEntry) ].Pairwise
        (fun a b => a.page < b.page))
    ∧ (∀ e ∈ [ ({ level := 1, title := "Chapter 1", page := 0 } : TOCEntry),
               ({ level := 1, title := "Chapter 2", page := 2 } : TOCEntry) ], 1 ≤ e.level)
    ∧ (resolveContentPages
        [ ({ level := 1, title := "Chapter 1", page := 0 } : TOCEntry),
          ({ level := 1, title := "Chapter 2", page := 2 } : TOCEntry) ] 5).start_page
      ≤ (resolveContentPages
        [ ({ level := 1, title := "Chapter 1", page := 0 } : TOCEntry),
          ({ level := 1, title := "Chapter 2", page := 2 } : TOCEntry) ] 5).end_page
    ∧ (Chain (resolveContentPages
          [ ({ level := 1, title := "Chapter 1", page := 0 } : TOCEntry),
            ({ level := 1, title := "Chapter 2", page := 2 } : TOCEntry) ] 5).start_page
        (resolveContentPages
          [ ({ level := 1, title := "Chapter 1", page := 0 } : TOCEntry),
            ({ level := 1, title := "Chapter 2", page := 2 } : TOCEntry) ] 5).end_page
        (resolveContentSections
          [ ({ level := 1, title := "Chapter 1", page := 0 } : TOCEntry),
            ({ level := 1, title := "Chapter 2", page := 2 } : TOCEntry) ]
          5 1 (some 3) (fun s e => e + 1 - s))
      ∧ (resolveContentSections
          [ ({ level := 1, title := "Chapter 1", page := 0 } : TOCEntry),
            ({ level := 1, title := "Chapter 2", page := 2 } : TOCEntry) ]
          5 1 (some 3) (fun s e => e + 1 - s)).Pairwise
          (fun a b => a.end_page < b.start_page)) :=
  ⟨by decide, by decide, by decide,
    c1_partition
      [ ({ level := 1, title := "Chapter 1", page := 0 } : TOCEntry),
        ({ level := 1, title := "Chapter 2", page := 2 } : TOCEntry) ]
      5 (some 3) (fun s e => e + 1 - s) (by decide) (by decide) (by decide)⟩
